import Mathlib

/-!
Verification of the deadwood Gin Rummy engine (cards, meld analysis,
layoff, round resolution).  The definitions below are a shallow
embedding of the Rust sources `src/cards.rs`, `src/meld.rs` and
`src/game.rs`.  Rust `Vec` becomes `List`, struct mutation becomes
explicit state passing, and fallible operations return `Except`.
Rust iteration orders that come from `HashMap` grouping (and are
therefore unspecified in the source) are embedded in a fixed
deterministic order; only the set of produced candidates matters to
the statements proved here.
-/

set_option maxRecDepth 10000

namespace Deadwood

/-! ### Cards (src/cards.rs)

`Rank` is represented by its numeric discriminant (Ace = 1 … King = 13)
and `Suit` by its discriminant (Clubs = 0, Diamonds = 1, Hearts = 2,
Spades = 3).  The derived Rust `Ord` on `Card` is lexicographic on
(rank, suit), which `cardLE` mirrors. -/

structure Card where
  rank : Nat
  suit : Nat
deriving DecidableEq, Repr

/-- A card representable by the Rust `Card` type: a real rank and suit. -/
def Card.valid (c : Card) : Prop := 1 ≤ c.rank ∧ c.rank ≤ 13 ∧ c.suit < 4

instance : DecidablePred Card.valid := fun c =>
  inferInstanceAs (Decidable (1 ≤ c.rank ∧ c.rank ≤ 13 ∧ c.suit < 4))

/-- `Rank::value`: face value, court cards count 10. -/
def Card.value (c : Card) : Nat := if 10 ≤ c.rank then 10 else c.rank

/-- Derived lexicographic order on `Card` (rank first, then suit). -/
def cardLE (a b : Card) : Prop :=
  a.rank < b.rank ∨ (a.rank = b.rank ∧ a.suit ≤ b.suit)

instance : DecidableRel cardLE := fun a b =>
  inferInstanceAs (Decidable (a.rank < b.rank ∨ (a.rank = b.rank ∧ a.suit ≤ b.suit)))

instance : IsTotal Card cardLE := ⟨by
  intro a b
  unfold cardLE
  omega⟩

instance : IsTrans Card cardLE := ⟨by
  intro a b c hab hbc
  unfold cardLE at *
  omega⟩

instance : IsAntisymm Card cardLE := ⟨by
  intro a b hab hba
  unfold cardLE at *
  have hr : a.rank = b.rank := by omega
  have hs : a.suit = b.suit := by omega
  cases a; cases b; simp_all⟩

instance : IsRefl Card cardLE := ⟨by intro a; unfold cardLE; omega⟩

/-- Rust `Vec::sort` on cards (stable sort by the derived order). -/
def sortCards (l : List Card) : List Card := l.insertionSort cardLE

/-- Sum of the card values of a deadwood list. -/
def deadwoodValue (l : List Card) : Nat := (l.map Card.value).sum

/-! ### Melds (src/meld.rs) -/

inductive MeldKind where
  | set
  | run
deriving DecidableEq, Repr

structure Meld where
  kind : MeldKind
  cards : List Card
deriving DecidableEq, Repr

/-- `Meld::new`: stores the cards sorted. -/
def Meld.new (k : MeldKind) (cs : List Card) : Meld := ⟨k, sortCards cs⟩

/-- `Meld::contains`. -/
def Meld.containsCard (m : Meld) (c : Card) : Prop := c ∈ m.cards

instance (m : Meld) (c : Card) : Decidable (m.containsCard c) :=
  inferInstanceAs (Decidable (c ∈ m.cards))

/-- `Meld::can_layoff`.  The Rust code compares ranks as `i32`; ranks are
embedded as `Nat` and the `min_rank - 1` comparison is written additively
(`card.rank + 1 = min_rank`), which agrees with the `i32` arithmetic. -/
def Meld.canLayoff (m : Meld) (c : Card) : Bool :=
  match m.kind with
  | .set =>
    match m.cards.head? with
    | some c0 => c0.rank == c.rank
    | none => false
  | .run =>
    match m.cards with
    | [] => false
    | c0 :: _ =>
      if c0.suit ≠ c.suit then false
      else
        let sorted := sortCards m.cards
        let minRank := (sorted.head?.getD c0).rank
        let maxRank := ((sorted.getLast?).getD c0).rank
        c.rank + 1 == minRank || c.rank == maxRank + 1

structure MeldAnalysis where
  melds : List Meld
  deadwood : List Card
  deadwood_value : Nat
deriving DecidableEq, Repr

/-- `MeldAnalysis::new`: computes `deadwood_value` from the deadwood. -/
def MeldAnalysis.make (ms : List Meld) (dw : List Card) : MeldAnalysis :=
  ⟨ms, dw, deadwoodValue dw⟩

/-! ### Candidate generation (src/meld.rs)

`generate_sets` groups the hand by rank (`into_group_map_by`) and emits
every 3-, 4-, …-card combination of each group; `generate_runs` groups
by suit, sorts and dedups (`BTreeSet`), splits into maximal chains of
consecutive ranks and emits every window of length ≥ 3.  The `HashMap`
grouping order is unspecified in Rust; here groups are visited in first
occurrence order of the key. -/

/-- The distinct ranks occurring in a hand, in first-occurrence order. -/
def ranksOf (cards : List Card) : List Nat := (cards.map Card.rank).dedup

/-- The distinct suits occurring in a hand, in first-occurrence order. -/
def suitsOf (cards : List Card) : List Nat := (cards.map Card.suit).dedup

/-- The group of cards of one rank, in hand order (`into_group_map_by`). -/
def rankGroup (cards : List Card) (r : Nat) : List Card :=
  cards.filter (fun c => c.rank == r)

/-- The group of cards of one suit, in hand order. -/
def suitGroup (cards : List Card) (s : Nat) : List Card :=
  cards.filter (fun c => c.suit == s)

/-- All 3-, 4-, …-card combinations of each rank group (itertools
`combinations` is embedded as `sublistsLen`, which enumerates the same
index subsets). -/
def generate_sets (cards : List Card) : List Meld :=
  (ranksOf cards).flatMap fun r =>
    let group := rankGroup cards r
    (List.range' 3 (group.length - 2)).flatMap fun size =>
      (List.sublistsLen size group).map fun combo => Meld.new .set combo

/-- `ranks_are_consecutive`. -/
def consecutive (prev next : Card) : Prop := prev.rank + 1 = next.rank

instance : DecidableRel consecutive := fun a b =>
  inferInstanceAs (Decidable (a.rank + 1 = b.rank))

/-- Removes adjacent duplicate cards; on a sorted list this is exactly
the `BTreeSet` round trip of the Rust code. -/
def dedupAdj : List Card → List Card
  | [] => []
  | [c] => [c]
  | c :: d :: rest => if c = d then dedupAdj (d :: rest) else c :: dedupAdj (d :: rest)

/-- Sorted list of the distinct cards of `l` (`sort` + `BTreeSet`). -/
def uniqueSorted (l : List Card) : List Card := dedupAdj (sortCards l)

/-- Longest prefix of `l` continuing a chain of consecutive ranks from
`c`, together with the rest (the inner `while` loop of `generate_runs`). -/
def takeChain (c : Card) : List Card → List Card × List Card
  | [] => ([], [])
  | d :: rest =>
    if consecutive c d then
      let (ch, o) := takeChain d rest
      (d :: ch, o)
    else ([], d :: rest)

theorem takeChain_snd_length (c : Card) (l : List Card) :
    (takeChain c l).2.length ≤ l.length := by
  induction l generalizing c with
  | nil => simp [takeChain]
  | cons d rest ih =>
    simp only [takeChain]
    by_cases h : consecutive c d
    · simpa [h] using Nat.le_succ_of_le (ih d)
    · simp [h]

/-- Splits a list into its maximal chains of consecutive ranks (the
outer `while` loop of `generate_runs`).  The recursion is on the
shrinking rest of the list; it is made structural on a `fuel` bound on
the length (callers supply `fuel ≥ length`, so the `0, _ :: _` clause
is never reached). -/
def chainBlocksGo : Nat → List Card → List (List Card)
  | _, [] => []
  | 0, _ :: _ => []
  | fuel + 1, c :: rest =>
    let p := takeChain c rest
    (c :: p.1) :: chainBlocksGo fuel p.2

def chainBlocks (l : List Card) : List (List Card) := chainBlocksGo l.length l

/-- All contiguous windows of length ≥ 3 of a block (`for len in
3..=(end-start) { for window_start in start..=(end-len) ... }`). -/
def blockWindows (b : List Card) : List (List Card) :=
  (List.range' 3 (b.length - 2)).flatMap fun len =>
    (List.range (b.length - len + 1)).map fun ws => (b.drop ws).take len

def generate_runs (cards : List Card) : List Meld :=
  (suitsOf cards).flatMap fun s =>
    (chainBlocks (uniqueSorted (suitGroup cards s))).flatMap fun b =>
      (blockWindows b).map fun w => Meld.new .run w

/-- `dedup_melds`: keeps the first meld for each distinct card list. -/
def dedupMeldsAux : List (List Card) → List Meld → List Meld
  | _, [] => []
  | seen, m :: rest =>
    if m.cards ∈ seen then dedupMeldsAux seen rest
    else m :: dedupMeldsAux (m.cards :: seen) rest

def generate_candidates (cards : List Card) : List Meld :=
  dedupMeldsAux [] (generate_sets cards ++ generate_runs cards)

/-! ### Optimal partition search (src/meld.rs `search_candidates`)

The Rust function pushes/pops on shared mutable vectors; here the
accumulators `cur` (chosen melds) and `dw` (deadwood so far) are passed
explicitly, appended at the end exactly as `push` does.  The inner
`for meld in candidates.iter().filter(...)` loop becomes the mutually
recursive `tryMelds`, which walks the candidate list carrying the
running best. -/

/-- The candidate-selection guard of the inner loop: the meld contains
the current card, all its cards are still in `remaining`, none is
already deadwood and none is claimed by a chosen meld. -/
def meldGuard (m : Meld) (remaining dw : List Card) (cur : List Meld) : Prop :=
  (∀ x ∈ m.cards, x ∈ remaining) ∧ (∀ x ∈ m.cards, x ∉ dw) ∧
    (∀ x ∈ m.cards, ∀ mm ∈ cur, x ∉ mm.cards)

instance (m : Meld) (remaining dw : List Card) (cur : List Meld) :
    Decidable (meldGuard m remaining dw cur) :=
  inferInstanceAs (Decidable ((∀ x ∈ m.cards, x ∈ remaining) ∧ (∀ x ∈ m.cards, x ∉ dw) ∧
    (∀ x ∈ m.cards, ∀ mm ∈ cur, x ∉ mm.cards)))

/-- The `better-than` test used to replace the running best: strictly
lower deadwood value, or equal value with strictly more melds. -/
def betterThan (a b : MeldAnalysis) : Prop :=
  a.deadwood_value < b.deadwood_value ∨
    (a.deadwood_value = b.deadwood_value ∧ b.melds.length < a.melds.length)

instance (a b : MeldAnalysis) : Decidable (betterThan a b) :=
  inferInstanceAs (Decidable (a.deadwood_value < b.deadwood_value ∨
    (a.deadwood_value = b.deadwood_value ∧ b.melds.length < a.melds.length)))

theorem sortCards_perm (l : List Card) : List.Perm (sortCards l) l :=
  List.perm_insertionSort cardLE l

theorem sortCards_length (l : List Card) : (sortCards l).length = l.length :=
  (sortCards_perm l).length_eq

theorem sortCards_sorted (l : List Card) : (sortCards l).Sorted cardLE :=
  List.sorted_insertionSort cardLE l

theorem mem_sortCards {x : Card} {l : List Card} : x ∈ sortCards l ↔ x ∈ l :=
  (sortCards_perm l).mem_iff

/-- The body of `search_candidates`.  The recursion of the Rust code is
on the shrinking `remaining` slice; here it is made structural on a
`fuel` bound on `remaining.length` (every caller supplies
`fuel ≥ remaining.length`, so the `0, _ :: _` clause is never reached —
the lemmas below carry that invariant).  The inner
`for meld in candidates.iter().filter(...)` loop carrying the running
best is the `foldl`. -/
def searchGo (cands : List Meld) :
    Nat → List Card → List Meld → List Card → MeldAnalysis → MeldAnalysis
  | _, [], cur, dw, best =>
    let analysis := MeldAnalysis.make cur dw
    if betterThan analysis best then analysis else best
  | 0, _ :: _, _, _, best => best
  | fuel + 1, c :: rest, cur, dw, best =>
    let b1 := searchGo cands fuel rest cur (dw ++ [c]) best
    cands.foldl
      (fun b m =>
        if c ∈ m.cards ∧ meldGuard m (c :: rest) dw cur then
          searchGo cands fuel
            (sortCards ((c :: rest).filter (fun x => decide (x ∉ m.cards))))
            (cur ++ [m]) dw b
        else b)
      b1

/-- `analyze_hand`. -/
def analyze_hand (cards : List Card) : MeldAnalysis :=
  let sorted := sortCards cards
  let candidates := generate_candidates sorted
  let best := MeldAnalysis.make [] sorted
  searchGo candidates sorted.length sorted [] [] best

/-! ### Layoff (src/meld.rs `layoff_cards`) -/

/-- Pushing a card into a meld and re-sorting (`meld.cards.push(*card);
meld.cards.sort()`). -/
def Meld.grow (m : Meld) (c : Card) : Meld := ⟨m.kind, sortCards (m.cards ++ [c])⟩

/-- The inner `for meld in expanded_melds.iter_mut()` loop: attaches the
card to the first meld accepting it, returning the updated meld list, or
`none` if no meld accepts it. -/
def attachFirst (c : Card) : List Meld → Option (List Meld)
  | [] => none
  | m :: ms =>
    if m.canLayoff c then some (m.grow c :: ms)
    else (attachFirst c ms).map (fun ms' => m :: ms')

/-- The outer loop of `layoff_cards`, carrying the `remaining` and
`laid_off` accumulators (appended in pass order, as `push` does) and the
mutable `expanded_melds`. -/
def layoffGo : List Card → List Card → List Card → List Meld → List Card × List Card
  | [], remaining, laidOff, _ => (remaining, laidOff)
  | c :: rest, remaining, laidOff, melds =>
    match attachFirst c melds with
    | some melds' => layoffGo rest remaining (laidOff ++ [c]) melds'
    | none => layoffGo rest (remaining ++ [c]) laidOff melds

/-- `layoff_cards`. -/
def layoff_cards (deadwood : List Card) (knockerMelds : List Meld) :
    List Card × List Card :=
  layoffGo deadwood [] [] knockerMelds

/-! ### Search correctness

`Leaf cands rem cur dw M D` says the backtracking search started at
state (`rem`, `cur`, `dw`) can reach the complete partition (`M`, `D`):
at each step the head card either becomes deadwood or is claimed
together with a candidate meld passing the guard.  `searchGo` is proved
to return the best (`betterThan`-maximal) analysis among the reachable
leaves and the incoming best. -/

theorem betterThan_trans {a b c : MeldAnalysis} (h1 : betterThan a b)
    (h2 : betterThan b c) : betterThan a c := by
  unfold betterThan at *
  omega

theorem betterThan_irrefl (a : MeldAnalysis) : ¬ betterThan a a := by
  unfold betterThan
  omega

theorem not_betterThan_mono {x b r : MeldAnalysis} (hx : ¬ betterThan x b)
    (hr : r = b ∨ betterThan r b) : ¬ betterThan x r := by
  rcases hr with rfl | hr
  · exact hx
  · intro hxr
    exact hx (betterThan_trans hxr hr)

inductive Leaf (cands : List Meld) :
    List Card → List Meld → List Card → List Meld → List Card → Prop
  | nil (cur : List Meld) (dw : List Card) : Leaf cands [] cur dw cur dw
  | dead {c : Card} {rest : List Card} {cur : List Meld} {dw : List Card}
      {M : List Meld} {D : List Card} :
      Leaf cands rest cur (dw ++ [c]) M D → Leaf cands (c :: rest) cur dw M D
  | meld {c : Card} {rest : List Card} {cur : List Meld} {dw : List Card}
      {M : List Meld} {D : List Card} (m : Meld) :
      m ∈ cands → c ∈ m.cards → meldGuard m (c :: rest) dw cur →
      Leaf cands (sortCards ((c :: rest).filter (fun x => decide (x ∉ m.cards))))
        (cur ++ [m]) dw M D →
      Leaf cands (c :: rest) cur dw M D

/-- The reduced remaining list of the meld branch is strictly
shorter. -/
theorem reduced_length_lt {c : Card} {rest : List Card} {m : Meld}
    (hc : c ∈ m.cards) :
    (sortCards ((c :: rest).filter (fun x => decide (x ∉ m.cards)))).length <
      (c :: rest).length := by
  rw [sortCards_length]
  refine List.length_filter_lt_length_iff_exists.mpr ?_
  exact ⟨c, List.mem_cons_self c rest, by simpa using hc⟩

/-- Full specification of `searchGo`: the result is the incoming best
or a reachable leaf, it is never worse than the incoming best, and no
reachable leaf beats it. -/
theorem searchGo_spec (cands : List Meld) :
    ∀ fuel (rem : List Card), rem.length ≤ fuel →
      ∀ (cur : List Meld) (dw : List Card) (best : MeldAnalysis),
      (searchGo cands fuel rem cur dw best = best ∨
        ∃ M D, Leaf cands rem cur dw M D ∧
          searchGo cands fuel rem cur dw best = MeldAnalysis.make M D) ∧
      (searchGo cands fuel rem cur dw best = best ∨
        betterThan (searchGo cands fuel rem cur dw best) best) ∧
      (∀ M D, Leaf cands rem cur dw M D →
        ¬ betterThan (MeldAnalysis.make M D) (searchGo cands fuel rem cur dw best)) := by
  intro fuel
  induction fuel with
  | zero =>
    intro rem hlen cur dw best
    have hrem : rem = [] := List.length_eq_zero.mp (Nat.le_zero.mp hlen)
    subst hrem
    constructor
    · by_cases h : betterThan (MeldAnalysis.make cur dw) best
      · right
        exact ⟨cur, dw, Leaf.nil cur dw, by simp [searchGo, h]⟩
      · left; simp [searchGo, h]
    constructor
    · by_cases h : betterThan (MeldAnalysis.make cur dw) best
      · right; simpa [searchGo, h] using h
      · left; simp [searchGo, h]
    · intro M D hleaf
      cases hleaf
      by_cases h : betterThan (MeldAnalysis.make cur dw) best
      · simp only [searchGo, if_pos h]
        exact betterThan_irrefl _
      · simpa [searchGo, h] using h
  | succ n ih =>
    intro rem hlen cur dw best
    cases rem with
    | nil =>
      constructor
      · by_cases h : betterThan (MeldAnalysis.make cur dw) best
        · right
          exact ⟨cur, dw, Leaf.nil cur dw, by simp [searchGo, h]⟩
        · left; simp [searchGo, h]
      constructor
      · by_cases h : betterThan (MeldAnalysis.make cur dw) best
        · right; simpa [searchGo, h] using h
        · left; simp [searchGo, h]
      · intro M D hleaf
        cases hleaf
        by_cases h : betterThan (MeldAnalysis.make cur dw) best
        · simp only [searchGo, if_pos h]
          exact betterThan_irrefl _
        · simpa [searchGo, h] using h
    | cons c rest =>
      have hrest : rest.length ≤ n := by
        simpa [Nat.succ_le_succ_iff] using hlen
      obtain ⟨hb1_orig, hb1_mono, hb1_leaves⟩ :=
        ih rest hrest cur (dw ++ [c]) best
      set b1 := searchGo cands n rest cur (dw ++ [c]) best with hb1def
      -- the inner candidate loop
      have hfold :
          ∀ ms : List Meld, (∀ m ∈ ms, m ∈ cands) → ∀ b : MeldAnalysis,
            (List.foldl
                (fun b m =>
                  if c ∈ m.cards ∧ meldGuard m (c :: rest) dw cur then
                    searchGo cands n
                      (sortCards ((c :: rest).filter (fun x => decide (x ∉ m.cards))))
                      (cur ++ [m]) dw b
                  else b)
                b ms = b ∨
              ∃ M D, Leaf cands (c :: rest) cur dw M D ∧
                List.foldl
                  (fun b m =>
                    if c ∈ m.cards ∧ meldGuard m (c :: rest) dw cur then
                      searchGo cands n
                        (sortCards ((c :: rest).filter (fun x => decide (x ∉ m.cards))))
                        (cur ++ [m]) dw b
                    else b)
                  b ms = MeldAnalysis.make M D) ∧
            (List.foldl
                (fun b m =>
                  if c ∈ m.cards ∧ meldGuard m (c :: rest) dw cur then
                    searchGo cands n
                      (sortCards ((c :: rest).filter (fun x => decide (x ∉ m.cards))))
                      (cur ++ [m]) dw b
                  else b)
                b ms = b ∨
              betterThan
                (List.foldl
                  (fun b m =>
                    if c ∈ m.cards ∧ meldGuard m (c :: rest) dw cur then
                      searchGo cands n
                        (sortCards ((c :: rest).filter (fun x => decide (x ∉ m.cards))))
                        (cur ++ [m]) dw b
                    else b)
                  b ms) b) ∧
            (∀ m ∈ ms, c ∈ m.cards → meldGuard m (c :: rest) dw cur →
              ∀ M D,
                Leaf cands
                  (sortCards ((c :: rest).filter (fun x => decide (x ∉ m.cards))))
                  (cur ++ [m]) dw M D →
                ¬ betterThan (MeldAnalysis.make M D)
                  (List.foldl
                    (fun b m =>
                      if c ∈ m.cards ∧ meldGuard m (c :: rest) dw cur then
                        searchGo cands n
                          (sortCards ((c :: rest).filter (fun x => decide (x ∉ m.cards))))
                          (cur ++ [m]) dw b
                      else b)
                    b ms)) ∧
            (∀ x : MeldAnalysis, ¬ betterThan x b →
              ¬ betterThan x
                (List.foldl
                  (fun b m =>
                    if c ∈ m.cards ∧ meldGuard m (c :: rest) dw cur then
                      searchGo cands n
                        (sortCards ((c :: rest).filter (fun x => decide (x ∉ m.cards))))
                        (cur ++ [m]) dw b
                    else b)
                  b ms)) := by
        intro ms
        induction ms with
        | nil =>
          intro _ b
          refine ⟨Or.inl rfl, Or.inl rfl, ?_, ?_⟩
          · intro m hm; cases hm
          · intro x hx; simpa using hx
        | cons m ms ihms =>
          intro hsub b
          have hmc : m ∈ cands := hsub m (by simp)
          have hsub' : ∀ m' ∈ ms, m' ∈ cands := fun m' hm' => hsub m' (by simp [hm'])
          by_cases hg : c ∈ m.cards ∧ meldGuard m (c :: rest) dw cur
          · have hredlen :
                (sortCards ((c :: rest).filter (fun x => decide (x ∉ m.cards)))).length ≤ n := by
              have := @reduced_length_lt c rest m hg.1
              simp only [List.length_cons] at this
              omega
            obtain ⟨hb2_orig, hb2_mono, hb2_leaves⟩ :=
              ih _ hredlen (cur ++ [m]) dw b
            set b2 := searchGo cands n
              (sortCards ((c :: rest).filter (fun x => decide (x ∉ m.cards))))
              (cur ++ [m]) dw b with hb2def
            obtain ⟨hfo, hfm, hfl, hfp⟩ := ihms hsub' b2
            simp only [List.foldl_cons, if_pos hg]
            rw [← hb2def]
            refine ⟨?_, ?_, ?_, ?_⟩
            · -- origin
              rcases hfo with hfo | ⟨M, D, hMD, heq⟩
              · rw [hfo]
                rcases hb2_orig with h2 | ⟨M, D, hMD, heq⟩
                · left; exact h2
                · right
                  exact ⟨M, D, Leaf.meld m hmc hg.1 hg.2 hMD, heq⟩
              · right; exact ⟨M, D, hMD, heq⟩
            · -- monotone
              rcases hfm with hfm | hfm
              · rw [hfm]; exact hb2_mono
              · rcases hb2_mono with h2 | h2
                · right; rw [← h2]; exact hfm
                · right; exact betterThan_trans hfm h2
            · -- leaves of listed melds
              intro m' hm' hc' hg' M D hMD
              rcases List.mem_cons.mp hm' with rfl | hm'
              · exact hfp _ (hb2_leaves M D hMD)
              · exact hfl m' hm' hc' hg' M D hMD
            · -- propagation
              intro x hx
              exact hfp x (not_betterThan_mono hx hb2_mono)
          · obtain ⟨hfo, hfm, hfl, hfp⟩ := ihms hsub' b
            simp only [List.foldl_cons, if_neg hg]
            refine ⟨hfo, hfm, ?_, hfp⟩
            intro m' hm' hc' hg' M D hMD
            rcases List.mem_cons.mp hm' with rfl | hm'
            · exact absurd ⟨hc', hg'⟩ hg
            · exact hfl m' hm' hc' hg' M D hMD
      have hgo : searchGo cands (n + 1) (c :: rest) cur dw best =
          List.foldl
            (fun b m =>
              if c ∈ m.cards ∧ meldGuard m (c :: rest) dw cur then
                searchGo cands n
                  (sortCards ((c :: rest).filter (fun x => decide (x ∉ m.cards))))
                  (cur ++ [m]) dw b
              else b)
            b1 cands := rfl
      obtain ⟨hfo, hfm, hfl, hfp⟩ := hfold cands (fun m hm => hm) b1
      rw [hgo]
      refine ⟨?_, ?_, ?_⟩
      · rcases hfo with hfo | ⟨M, D, hMD, heq⟩
        · rw [hfo]
          rcases hb1_orig with h1 | ⟨M, D, hMD, heq⟩
          · left; exact h1
          · right; exact ⟨M, D, Leaf.dead hMD, heq⟩
        · right; exact ⟨M, D, hMD, heq⟩
      · rcases hfm with hfm | hfm
        · rw [hfm]; exact hb1_mono
        · rcases hb1_mono with h1 | h1
          · right; rw [← h1]; exact hfm
          · right; exact betterThan_trans hfm h1
      · intro M D hMD
        cases hMD with
        | dead hMD' => exact hfp _ (hb1_leaves _ _ hMD')
        | meld m hmc hcm hgm hMD' => exact hfl m hmc hcm hgm _ _ hMD'

/-- Every reachable leaf extends the accumulators by candidate melds
and deadwood that together are a permutation of the remaining cards. -/
theorem leaf_partition (cands : List Meld) (hcn : ∀ m ∈ cands, m.cards.Nodup) :
    ∀ {rem : List Card} {cur : List Meld} {dw : List Card} {M : List Meld} {D : List Card},
      Leaf cands rem cur dw M D → rem.Nodup →
      ∃ Madd Dadd, M = cur ++ Madd ∧ D = dw ++ Dadd ∧
        (∀ m ∈ Madd, m ∈ cands) ∧
        List.Perm (Madd.flatMap Meld.cards ++ Dadd) rem := by
  intro rem cur dw M D hleaf
  induction hleaf with
  | nil cur dw =>
    intro _
    exact ⟨[], [], by simp, by simp, by simp, by simp⟩
  | @dead c rest cur dw M D h ih =>
    intro hnd
    obtain ⟨Madd, Dadd', hM, hD, hmem, hperm⟩ := ih (List.Nodup.of_cons hnd)
    refine ⟨Madd, c :: Dadd', hM, by rw [hD]; simp, hmem, ?_⟩
    exact List.Perm.trans List.perm_middle (hperm.cons c)
  | @meld c rest cur dw M D m hmc hcm hguard h ih =>
    intro hnd
    have hrednodup :
        (sortCards ((c :: rest).filter (fun x => decide (x ∉ m.cards)))).Nodup :=
      ((sortCards_perm _).nodup_iff).mpr (hnd.filter _)
    obtain ⟨Madd', Dadd, hM, hD, hmem, hperm⟩ := ih hrednodup
    refine ⟨m :: Madd', Dadd, by rw [hM]; simp, hD, ?_, ?_⟩
    · intro m' hm'
      rcases List.mem_cons.mp hm' with rfl | hm'
      · exact hmc
      · exact hmem m' hm'
    · have h1 : (m :: Madd').flatMap Meld.cards ++ Dadd =
          m.cards ++ (Madd'.flatMap Meld.cards ++ Dadd) := by simp
      rw [h1]
      refine (hperm.append_left m.cards).trans ?_
      refine ((sortCards_perm _).append_left m.cards).trans ?_
      have hsub : ∀ x ∈ m.cards, x ∈ c :: rest := hguard.1
      have hmnd : m.cards.Nodup := hcn m hmc
      refine (List.perm_ext_iff_of_nodup ?_ hnd).mpr ?_
      · refine List.Nodup.append hmnd (hnd.filter _) ?_
        intro x hx1 hx2
        have hx2' := (List.mem_filter.mp hx2).2
        simp only [decide_eq_true_eq] at hx2'
        exact hx2' hx1
      · intro a
        constructor
        · intro ha
          rcases List.mem_append.mp ha with ha | ha
          · exact hsub a ha
          · exact (List.mem_filter.mp ha).1
        · intro ha
          by_cases ham : a ∈ m.cards
          · exact List.mem_append.mpr (Or.inl ham)
          · refine List.mem_append.mpr (Or.inr ?_)
            exact List.mem_filter.mpr ⟨ha, by simpa using ham⟩

/-- Card-disjointness of melds, the symmetric relation used for
partitions. -/
def MeldDisjoint (m1 m2 : Meld) : Prop := ∀ x ∈ m1.cards, x ∉ m2.cards

theorem meldDisjoint_symm : Symmetric MeldDisjoint := by
  intro a b h x hxb hxa
  exact h x hxa hxb

/-- Completeness: every partition of the remaining cards into candidate
melds and deadwood is reached by some leaf. -/
theorem leaf_complete (cands : List Meld) :
    ∀ (n : Nat) (rem : List Card), rem.length = n →
      ∀ (cur : List Meld) (dw : List Card) (Ms : List Meld) (D' : List Card),
      rem.Nodup →
      (∀ m ∈ Ms, m ∈ cands) →
      (∀ m ∈ Ms, m.cards ≠ []) →
      List.Pairwise MeldDisjoint Ms →
      (∀ x ∈ rem, x ∉ dw) →
      (∀ x ∈ rem, ∀ mm ∈ cur, x ∉ mm.cards) →
      List.Perm (Ms.flatMap Meld.cards ++ D') rem →
      ∃ M D, Leaf cands rem cur dw M D ∧
        List.Perm M (cur ++ Ms) ∧ List.Perm D (dw ++ D') := by
  intro n
  induction n using Nat.strong_induction_on with
  | _ n ihn =>
  intro rem hn cur dw Ms D' hnd hmsc hne hdisj hdw hcur hperm
  cases rem with
  | nil =>
    have h0 : Ms.flatMap Meld.cards ++ D' = [] := hperm.eq_nil
    have hMs : Ms = [] := by
      cases hMs : Ms with
      | nil => rfl
      | cons m ms =>
        exfalso
        rw [hMs] at h0
        simp only [List.flatMap_cons, List.append_assoc, List.append_eq_nil] at h0
        exact hne m (by rw [hMs]; simp) h0.1
    have hD' : D' = [] := by
      rw [hMs] at h0
      simpa using h0
    subst hMs; subst hD'
    exact ⟨cur, dw, Leaf.nil cur dw, by simp, by simp⟩
  | cons c rest =>
    have hndLHS : (Ms.flatMap Meld.cards ++ D').Nodup := (hperm.nodup_iff).mpr hnd
    have hc : c ∈ Ms.flatMap Meld.cards ∨ c ∈ D' :=
      List.mem_append.mp (hperm.mem_iff.mpr (List.mem_cons_self c rest))
    have hcrest : c ∉ rest := (List.nodup_cons.mp hnd).1
    rcases hc with hcM | hcD
    · -- the head card belongs to a partition meld: take the meld branch
      obtain ⟨m, hmMs, hcm⟩ := List.mem_flatMap.mp hcM
      have hmc : m ∈ cands := hmsc m hmMs
      have hsub1 : ∀ x ∈ m.cards, x ∈ c :: rest := fun x hx =>
        hperm.subset (List.mem_append_left _ (List.mem_flatMap.mpr ⟨m, hmMs, hx⟩))
      have hguard : meldGuard m (c :: rest) dw cur :=
        ⟨hsub1, fun x hx => hdw x (hsub1 x hx),
          fun x hx mm hmm => hcur x (hsub1 x hx) mm hmm⟩
      have hpairm : List.Pairwise MeldDisjoint (m :: Ms.erase m) :=
        ((List.perm_cons_erase hmMs).pairwise_iff
          (fun {a b} h => meldDisjoint_symm h)).mp hdisj
      have hmdisj : ∀ mm ∈ Ms.erase m, MeldDisjoint m mm :=
        fun mm hmm => (List.pairwise_cons.mp hpairm).1 mm hmm
      have hpermMs : List.Perm (Ms.flatMap Meld.cards)
          (m.cards ++ (Ms.erase m).flatMap Meld.cards) := by
        have h1 := List.Perm.flatMap_right Meld.cards (List.perm_cons_erase hmMs)
        simpa using h1
      have hDnotm : ∀ x ∈ D', x ∉ m.cards := by
        intro x hx hxm
        exact (List.disjoint_of_nodup_append hndLHS)
          (List.mem_flatMap.mpr ⟨m, hmMs, hxm⟩) hx
      have hpermIn :
          List.Perm ((Ms.erase m).flatMap Meld.cards ++ D')
            (sortCards ((c :: rest).filter (fun x => decide (x ∉ m.cards)))) := by
      -- reduced ~ filter (c :: rest) ~ filter (flatMap Ms ++ D') = flatMap (erase) ++ D'
        refine List.Perm.symm ((sortCards_perm _).trans ?_)
        refine ((hperm.symm).filter _).trans ?_
        rw [List.filter_append]
        have hD'filter : D'.filter (fun x => decide (x ∉ m.cards)) = D' := by
          rw [List.filter_eq_self]
          intro a ha
          simpa using hDnotm a ha
        rw [hD'filter]
        refine List.Perm.append_right D' ?_
        refine (hpermMs.filter _).trans ?_
        rw [List.filter_append]
        have h1 : m.cards.filter (fun x => decide (x ∉ m.cards)) = [] := by
          rw [List.filter_eq_nil_iff]
          intro a ha
          simpa using ha
        have h2 : ((Ms.erase m).flatMap Meld.cards).filter
            (fun x => decide (x ∉ m.cards)) = (Ms.erase m).flatMap Meld.cards := by
          rw [List.filter_eq_self]
          intro a ha
          obtain ⟨mm, hmm, ha⟩ := List.mem_flatMap.mp ha
          simpa using fun ham => hmdisj mm hmm a ham ha
        rw [h1, h2, List.nil_append]
      have hredlen :
          (sortCards ((c :: rest).filter (fun x => decide (x ∉ m.cards)))).length < n := by
        rw [← hn]
        exact reduced_length_lt hcm
      have hrednodup :
          (sortCards ((c :: rest).filter (fun x => decide (x ∉ m.cards)))).Nodup :=
        ((sortCards_perm _).nodup_iff).mpr (hnd.filter _)
      have hredmem : ∀ x ∈ sortCards ((c :: rest).filter (fun x => decide (x ∉ m.cards))),
          x ∈ c :: rest ∧ x ∉ m.cards := by
        intro x hx
        have hx' := mem_sortCards.mp hx
        refine ⟨(List.mem_filter.mp hx').1, ?_⟩
        have := (List.mem_filter.mp hx').2
        simpa using this
      obtain ⟨M, D, hleaf, hM, hD⟩ :=
        ihn _ hredlen _ rfl (cur ++ [m]) dw (Ms.erase m) D' hrednodup
          (fun mm hmm => hmsc mm (List.mem_of_mem_erase hmm))
          (fun mm hmm => hne mm (List.mem_of_mem_erase hmm))
          (hdisj.sublist (List.erase_sublist m Ms))
          (fun x hx => hdw x (hredmem x hx).1)
          (fun x hx mm hmm => by
            rcases List.mem_append.mp hmm with hmm | hmm
            · exact hcur x (hredmem x hx).1 mm hmm
            · rw [List.mem_singleton.mp hmm]
              exact (hredmem x hx).2)
          hpermIn
      refine ⟨M, D, Leaf.meld m hmc hcm hguard hleaf, ?_, hD⟩
      refine hM.trans ?_
      have he : (cur ++ [m]) ++ Ms.erase m = cur ++ (m :: Ms.erase m) := by simp
      rw [he]
      exact List.Perm.append_left cur (List.perm_cons_erase hmMs).symm
    · -- the head card is partition deadwood: take the deadwood branch
      have hcnotM : c ∉ Ms.flatMap Meld.cards := fun hx =>
        (List.disjoint_of_nodup_append hndLHS) hx hcD
      have hperm' : List.Perm (Ms.flatMap Meld.cards ++ D'.erase c) rest := by
        have h2 := hperm.erase c
        rw [List.erase_append_right D' hcnotM] at h2
        simpa [List.erase_cons_head] using h2
      obtain ⟨M, D, hleaf, hM, hD⟩ :=
        ihn rest.length (by rw [← hn, List.length_cons]; exact Nat.lt_succ_self _)
          rest rfl cur (dw ++ [c]) Ms (D'.erase c)
          (List.Nodup.of_cons hnd) hmsc hne hdisj
          (fun x hx => by
            simp only [List.mem_append, List.mem_singleton, not_or]
            refine ⟨hdw x (List.mem_cons_of_mem c hx), ?_⟩
            rintro rfl
            exact hcrest hx)
          (fun x hx mm hmm => hcur x (List.mem_cons_of_mem c hx) mm hmm)
          hperm'
      refine ⟨M, D, Leaf.dead hleaf, hM, ?_⟩
      refine hD.trans ?_
      have he : (dw ++ [c]) ++ D'.erase c = dw ++ (c :: D'.erase c) := by simp
      rw [he]
      exact List.Perm.append_left dw (List.perm_cons_erase hcD).symm

/-! ### Candidate generation lemmas -/

theorem dedupMeldsAux_subset :
    ∀ (seen : List (List Card)) (ms : List Meld), ∀ m ∈ dedupMeldsAux seen ms, m ∈ ms := by
  intro seen ms
  induction ms generalizing seen with
  | nil => intro m hm; simp [dedupMeldsAux] at hm
  | cons m0 rest ih =>
    intro m hm
    unfold dedupMeldsAux at hm
    by_cases h0 : m0.cards ∈ seen
    · rw [if_pos h0] at hm
      exact List.mem_cons_of_mem m0 (ih seen m hm)
    · rw [if_neg h0] at hm
      rcases List.mem_cons.mp hm with rfl | hm
      · exact List.mem_cons_self m rest
      · exact List.mem_cons_of_mem m0 (ih _ m hm)

theorem dedupMeldsAux_complete :
    ∀ (seen : List (List Card)) (ms : List Meld) (m : Meld), m ∈ ms →
      (∃ m' ∈ dedupMeldsAux seen ms, m'.cards = m.cards) ∨ m.cards ∈ seen := by
  intro seen ms
  induction ms generalizing seen with
  | nil => intro m hm; cases hm
  | cons m0 rest ih =>
    intro m hm
    unfold dedupMeldsAux
    by_cases h0 : m0.cards ∈ seen
    · rw [if_pos h0]
      rcases List.mem_cons.mp hm with rfl | hm
      · right; exact h0
      · exact ih seen m hm
    · rw [if_neg h0]
      rcases List.mem_cons.mp hm with rfl | hm
      · left; exact ⟨m, List.mem_cons_self _ _, rfl⟩
      · rcases ih (m0.cards :: seen) m hm with ⟨m', hm', he⟩ | hseen
        · left; exact ⟨m', List.mem_cons_of_mem m0 hm', he⟩
        · rcases List.mem_cons.mp hseen with he | hseen
          · left; exact ⟨m0, List.mem_cons_self _ _, he.symm⟩
          · right; exact hseen

theorem generate_candidates_subset {cards : List Card} {m : Meld}
    (hm : m ∈ generate_candidates cards) :
    m ∈ generate_sets cards ∨ m ∈ generate_runs cards :=
  List.mem_append.mp (dedupMeldsAux_subset [] _ m hm)

theorem generate_candidates_complete {cards : List Card} {m : Meld}
    (hm : m ∈ generate_sets cards ∨ m ∈ generate_runs cards) :
    ∃ m' ∈ generate_candidates cards, m'.cards = m.cards := by
  have hm' : m ∈ generate_sets cards ++ generate_runs cards := List.mem_append.mpr hm
  rcases dedupMeldsAux_complete [] _ m hm' with h | h
  · exact h
  · cases h

theorem generate_sets_sound {cards : List Card} {m : Meld} (hm : m ∈ generate_sets cards) :
    ∃ r combo, combo.Sublist (rankGroup cards r) ∧ 3 ≤ combo.length ∧
      m = Meld.new .set combo := by
  unfold generate_sets at hm
  simp only [List.mem_flatMap, List.mem_map, List.mem_range'_1] at hm
  obtain ⟨r, hr, size, hsize, combo, hcombo, rfl⟩ := hm
  obtain ⟨hsl, hlen⟩ := List.mem_sublistsLen.mp hcombo
  exact ⟨r, combo, hsl, by omega, rfl⟩

theorem rankGroup_rank {cards : List Card} {r : Nat} {x : Card}
    (hx : x ∈ rankGroup cards r) : x.rank = r := by
  have := (List.mem_filter.mp hx).2
  simpa using this

/-- In a valid, duplicate-free hand, a rank group holds at most 4
cards. -/
theorem rankGroup_length_le {cards : List Card} {r : Nat}
    (hnd : cards.Nodup) (hv : ∀ c ∈ cards, c.valid) :
    (rankGroup cards r).length ≤ 4 := by
  have hgnd : (rankGroup cards r).Nodup := hnd.filter _
  have hsnd : ((rankGroup cards r).map Card.suit).Nodup := by
    refine (List.Nodup.map_on ?_) hgnd
    intro x hx y hy hxy
    have hxr := rankGroup_rank hx
    have hyr := rankGroup_rank hy
    cases x; cases y
    simp_all
  have hsub : ((rankGroup cards r).map Card.suit) ⊆ List.range 4 := by
    intro s hs
    obtain ⟨x, hx, rfl⟩ := List.mem_map.mp hs
    have hxv := hv x (List.mem_of_mem_filter hx)
    exact List.mem_range.mpr hxv.2.2
  have := (hsnd.subperm hsub).length_le
  simpa using this

/-- Every sorted same-rank selection of 3+ hand cards is produced by
`generate_sets`. -/
theorem generate_sets_complete {hand s : List Card}
    (hs3 : 3 ≤ s.length) (hnd : s.Nodup) (hsorted : s.Sorted cardLE)
    (hrank : ∃ r, ∀ x ∈ s, x.rank = r) (hsub : ∀ x ∈ s, x ∈ hand) :
    ∃ m ∈ generate_sets hand, m.cards = s := by
  obtain ⟨r, hr⟩ := hrank
  obtain ⟨x0, hx0⟩ : ∃ x0, x0 ∈ s := by
    cases s with
    | nil => simp at hs3
    | cons a t => exact ⟨a, List.mem_cons_self a t⟩
  have hrmem : r ∈ ranksOf hand := by
    unfold ranksOf
    rw [List.mem_dedup]
    exact List.mem_map.mpr ⟨x0, hsub x0 hx0, hr x0 hx0⟩
  have hsgroup : s ⊆ rankGroup hand r := by
    intro x hx
    refine List.mem_filter.mpr ⟨hsub x hx, ?_⟩
    simpa using hr x hx
  obtain ⟨combo, hcp, hcs⟩ := hnd.subperm hsgroup
  have hclen : combo.length = s.length := hcp.length_eq
  have hle : s.length ≤ (rankGroup hand r).length := by
    rw [← hclen]
    exact hcs.length_le
  refine ⟨Meld.new .set combo, ?_, ?_⟩
  · unfold generate_sets
    simp only [List.mem_flatMap, List.mem_map, List.mem_range'_1]
    refine ⟨r, hrmem, s.length, by omega, combo, ?_, rfl⟩
    exact List.mem_sublistsLen.mpr ⟨hcs, hclen⟩
  · show sortCards combo = s
    exact List.eq_of_perm_of_sorted ((sortCards_perm combo).trans hcp)
      (sortCards_sorted combo) hsorted

/-! ### Run-generation lemmas -/

theorem takeChain_append : ∀ (c : Card) (rest : List Card),
    (takeChain c rest).1 ++ (takeChain c rest).2 = rest := by
  intro c rest
  induction rest generalizing c with
  | nil => rfl
  | cons d rest' ih =>
    by_cases h : consecutive c d
    · rcases htc : takeChain d rest' with ⟨ch, o⟩
      have he : ch ++ o = rest' := by rw [← ih d, htc]
      simp [takeChain, h, htc, he]
    · simp [takeChain, h]

theorem takeChain_chain : ∀ (c : Card) (rest : List Card),
    List.Chain' consecutive (c :: (takeChain c rest).1) := by
  intro c rest
  induction rest generalizing c with
  | nil => simp [takeChain]
  | cons d rest' ih =>
    by_cases h : consecutive c d
    · rcases htc : takeChain d rest' with ⟨ch, o⟩
      have := ih d
      rw [htc] at this
      simp only [takeChain, h, if_pos, htc]
      exact List.Chain'.cons h this
    · simp [takeChain, h]

theorem takeChain_stop : ∀ (c : Card) (rest : List Card),
    (takeChain c rest).2 = [] ∨
      ∃ d o' z, (takeChain c rest).2 = d :: o' ∧
        (c :: (takeChain c rest).1).getLast? = some z ∧ ¬ consecutive z d := by
  intro c rest
  induction rest generalizing c with
  | nil => left; rfl
  | cons d rest' ih =>
    by_cases h : consecutive c d
    · rcases htc : takeChain d rest' with ⟨ch, o⟩
      have h1 : (takeChain c (d :: rest')).1 = d :: ch := by
        simp [takeChain, h, htc]
      have h2 : (takeChain c (d :: rest')).2 = o := by
        simp [takeChain, h, htc]
      rcases ih d with ho | ⟨e, o', z, heq, hz, hnc⟩
      · left
        rw [htc] at ho
        rw [h2]
        exact ho
      · right
        rw [htc] at heq hz
        refine ⟨e, o', z, by rw [h2]; exact heq, ?_, hnc⟩
        rw [h1, List.getLast?_cons_cons]
        exact hz
    · right
      have h1 : (takeChain c (d :: rest')).1 = [] := by simp [takeChain, h]
      refine ⟨d, rest', c, by simp [takeChain, h], ?_, h⟩
      rw [h1]
      rfl

theorem infix_append_cases {s a b : List Card} (h : s <:+: (a ++ b)) :
    s <:+: a ∨ s <:+: b ∨
      ∃ s1 s2, s = s1 ++ s2 ∧ s1 ≠ [] ∧ s2 ≠ [] ∧ s1 <:+ a ∧ s2 <+: b := by
  obtain ⟨u, v, huv⟩ := h
  have hlen : u.length + s.length + v.length = a.length + b.length := by
    rw [← List.length_append, ← List.length_append, huv, List.length_append]
  have htake : a = (u ++ (s ++ v)).take a.length := by
    have h0 : a = (a ++ b).take a.length := by simp
    rw [← huv, List.append_assoc] at h0
    exact h0
  have hdrop : b = (u ++ (s ++ v)).drop a.length := by
    have h0 : b = (a ++ b).drop a.length := by simp
    rw [← huv, List.append_assoc] at h0
    exact h0
  by_cases h1 : u.length + s.length ≤ a.length
  · left
    have hu : u.length ≤ a.length := by omega
    have hta : (u ++ (s ++ v)).take a.length =
        u ++ (s ++ v.take (a.length - u.length - s.length)) := by
      rw [List.take_append_eq_append_take, List.take_of_length_le hu,
        List.take_append_eq_append_take,
        List.take_of_length_le (by omega : s.length ≤ a.length - u.length)]
    have ha := htake.trans hta
    exact ⟨u, v.take (a.length - u.length - s.length), by rw [List.append_assoc]; exact ha.symm⟩
  · by_cases h2 : a.length ≤ u.length
    · right; left
      have htb : (u ++ (s ++ v)).drop a.length = u.drop a.length ++ (s ++ v) := by
        rw [List.drop_append_eq_append_drop,
          show a.length - u.length = 0 from by omega, List.drop_zero]
      have hb := hdrop.trans htb
      exact ⟨u.drop a.length, v, by rw [List.append_assoc]; exact hb.symm⟩
    · right; right
      push_neg at h1 h2
      refine ⟨s.take (a.length - u.length), s.drop (a.length - u.length),
        (List.take_append_drop _ s).symm, ?_, ?_, ?_, ?_⟩
      · have hl : (s.take (a.length - u.length)).length = a.length - u.length := by
          rw [List.length_take]
          omega
        intro hc
        rw [hc] at hl
        simp only [List.length_nil] at hl
        omega
      · have hl : (s.drop (a.length - u.length)).length = s.length - (a.length - u.length) := by
          rw [List.length_drop]
        intro hc
        rw [hc] at hl
        simp only [List.length_nil] at hl
        omega
      · have hta : (u ++ (s ++ v)).take a.length = u ++ s.take (a.length - u.length) := by
          rw [List.take_append_eq_append_take,
            List.take_of_length_le (by omega : u.length ≤ a.length),
            List.take_append_eq_append_take,
            show a.length - u.length - s.length = 0 from by omega, List.take_zero,
            List.append_nil]
        exact ⟨u, (htake.trans hta).symm⟩
      · have htb : (u ++ (s ++ v)).drop a.length = s.drop (a.length - u.length) ++ v := by
          rw [List.drop_append_eq_append_drop,
            List.drop_eq_nil_of_le (by omega : u.length ≤ a.length),
            List.drop_append_eq_append_drop,
            show a.length - u.length - s.length = 0 from by omega, List.drop_zero,
            List.nil_append]
        exact ⟨v, (hdrop.trans htb).symm⟩

theorem chainBlocksGo_sound :
    ∀ (fuel : Nat) (l : List Card), ∀ b ∈ chainBlocksGo fuel l,
      List.Chain' consecutive b ∧ ∀ x ∈ b, x ∈ l := by
  intro fuel
  induction fuel with
  | zero =>
    intro l b hb
    cases l with
    | nil => cases hb
    | cons c rest => cases hb
  | succ n ih =>
    intro l b hb
    cases l with
    | nil => cases hb
    | cons c rest =>
      have hb' : b = c :: (takeChain c rest).1 ∨ b ∈ chainBlocksGo n (takeChain c rest).2 := by
        simpa [chainBlocksGo] using hb
      rcases hb' with rfl | hb'
      · refine ⟨takeChain_chain c rest, ?_⟩
        intro x hx
        rcases List.mem_cons.mp hx with rfl | hx
        · exact List.mem_cons_self _ _
        · refine List.mem_cons_of_mem c ?_
          rw [← takeChain_append c rest]
          exact List.mem_append_left _ hx
      · obtain ⟨hch, hmem⟩ := ih _ b hb'
        refine ⟨hch, ?_⟩
        intro x hx
        refine List.mem_cons_of_mem c ?_
        rw [← takeChain_append c rest]
        exact List.mem_append_right _ (hmem x hx)

/-- A non-empty consecutive infix of a list lies inside one of its
maximal chain blocks. -/
theorem infix_in_block :
    ∀ (fuel : Nat) (l : List Card), l.length ≤ fuel →
      ∀ s : List Card, s ≠ [] → List.Chain' consecutive s → s <:+: l →
      ∃ b ∈ chainBlocksGo fuel l, s <:+: b := by
  intro fuel
  induction fuel with
  | zero =>
    intro l hl s hne _ hinf
    have : l = [] := List.length_eq_zero.mp (Nat.le_zero.mp hl)
    subst this
    exact absurd (List.sublist_nil.mp hinf.sublist) hne
  | succ n ih =>
    intro l hl s hne hchain hinf
    cases l with
    | nil => exact absurd (List.sublist_nil.mp hinf.sublist) hne
    | cons c rest =>
      have hsplit : c :: rest = (c :: (takeChain c rest).1) ++ (takeChain c rest).2 := by
        rw [List.cons_append, takeChain_append]
      have hblocks : chainBlocksGo (n + 1) (c :: rest) =
          (c :: (takeChain c rest).1) :: chainBlocksGo n (takeChain c rest).2 := rfl
      rw [hsplit] at hinf
      rcases infix_append_cases hinf with hb | ho | ⟨s1, s2, hs, hne1, hne2, hsuf, hpre⟩
      · exact ⟨c :: (takeChain c rest).1, by rw [hblocks]; exact List.mem_cons_self _ _, hb⟩
      · have holen : (takeChain c rest).2.length ≤ n := by
          have h1 := takeChain_snd_length c rest
          have h2 : rest.length + 1 ≤ n + 1 := by simpa using hl
          omega
        obtain ⟨b, hb, hsb⟩ := ih _ holen s hne hchain ho
        exact ⟨b, by rw [hblocks]; exact List.mem_cons_of_mem _ hb, hsb⟩
      · exfalso
        rw [hs] at hchain
        obtain ⟨-, -, hlink⟩ := List.chain'_append.mp hchain
        rcases takeChain_stop c rest with ho0 | ⟨d, o', z, heqo, hz, hnc⟩
        · rw [ho0] at hpre
          exact hne2 (List.prefix_nil.mp hpre)
        · apply hnc
          have hgl : s1.getLast? = some z := by
            obtain ⟨w, hw⟩ := hsuf
            rw [← hz, ← hw]
            exact (List.getLast?_append_of_ne_nil w hne1).symm
          have hhd : s2.head? = some d := by
            obtain ⟨t, ht⟩ := hpre
            rw [heqo] at ht
            cases s2 with
            | nil => exact absurd rfl hne2
            | cons e s2' =>
              simp only [List.cons_append] at ht
              rw [List.head?_cons]
              exact congrArg some (List.head_eq_of_cons_eq ht)
          exact hlink z (by rw [hgl]; rfl) d (by rw [hhd]; rfl)

theorem mem_blockWindows {b w : List Card} :
    w ∈ blockWindows b ↔
      ∃ len ws, 3 ≤ len ∧ ws + len ≤ b.length ∧ w = (b.drop ws).take len := by
  unfold blockWindows
  simp only [List.mem_flatMap, List.mem_map, List.mem_range'_1, List.mem_range]
  constructor
  · rintro ⟨len, ⟨h3, hlt⟩, ws, hws, rfl⟩
    exact ⟨len, ws, h3, by omega, rfl⟩
  · rintro ⟨len, ws, h3, hsum, rfl⟩
    exact ⟨len, ⟨h3, by omega⟩, ws, by omega, rfl⟩

theorem infix_mem_blockWindows {b s : List Card} (h3 : 3 ≤ s.length) (hinf : s <:+: b) :
    s ∈ blockWindows b := by
  obtain ⟨u, v, huv⟩ := hinf
  refine mem_blockWindows.mpr ⟨s.length, u.length, h3, ?_, ?_⟩
  · have := congrArg List.length huv
    simp only [List.length_append] at this
    omega
  · rw [← huv, List.append_assoc, List.drop_append_eq_append_drop,
      List.drop_of_length_le (le_refl u.length), Nat.sub_self, List.drop_zero,
      List.nil_append, List.take_append_eq_append_take, List.take_length,
      Nat.sub_self, List.take_zero, List.append_nil]

theorem chain_rank_bounds :
    ∀ (t : List Card) (c0 : Card), List.Chain' consecutive (c0 :: t) →
      ∀ x ∈ c0 :: t, c0.rank ≤ x.rank ∧ x.rank < c0.rank + (c0 :: t).length := by
  intro t
  induction t with
  | nil =>
    intro c0 _ x hx
    rcases List.mem_singleton.mp hx with rfl
    simp
  | cons c1 t' ih =>
    intro c0 hch x hx
    have hc01 : consecutive c0 c1 := (List.chain'_cons.mp hch).1
    have hch' : List.Chain' consecutive (c1 :: t') := (List.chain'_cons.mp hch).2
    rcases List.mem_cons.mp hx with rfl | hx
    · simp
    · have := ih c1 hch' x hx
      unfold consecutive at hc01
      simp only [List.length_cons] at this ⊢
      omega

theorem chain_rank_surj :
    ∀ (t : List Card) (c0 : Card), List.Chain' consecutive (c0 :: t) →
      ∀ k, k < (c0 :: t).length → ∃ x ∈ c0 :: t, x.rank = c0.rank + k := by
  intro t
  induction t with
  | nil =>
    intro c0 _ k hk
    have : k = 0 := by simpa using Nat.lt_one_iff.mp (by simpa using hk)
    subst this
    exact ⟨c0, List.mem_singleton_self c0, by simp⟩
  | cons c1 t' ih =>
    intro c0 hch k hk
    have hc01 : consecutive c0 c1 := (List.chain'_cons.mp hch).1
    have hch' : List.Chain' consecutive (c1 :: t') := (List.chain'_cons.mp hch).2
    cases k with
    | zero => exact ⟨c0, List.mem_cons_self _ _, by simp⟩
    | succ k' =>
      have hk' : k' < (c1 :: t').length := by
        simp only [List.length_cons] at hk ⊢
        omega
      obtain ⟨x, hx, hr⟩ := ih c1 hch' k' hk'
      refine ⟨x, List.mem_cons_of_mem c0 hx, ?_⟩
      unfold consecutive at hc01
      omega

theorem chain_pairwise_rank_lt :
    ∀ (l : List Card), List.Chain' consecutive l →
      List.Pairwise (fun a b => a.rank < b.rank) l := by
  intro l
  induction l with
  | nil => intro _; exact List.Pairwise.nil
  | cons c t ih =>
    intro hch
    cases t with
    | nil => simp
    | cons d t' =>
      have hcd : consecutive c d := (List.chain'_cons.mp hch).1
      have hch' : List.Chain' consecutive (d :: t') := (List.chain'_cons.mp hch).2
      have hp := ih hch'
      refine List.Pairwise.cons ?_ hp
      intro y hy
      rcases List.mem_cons.mp hy with rfl | hy
      · unfold consecutive at hcd; omega
      · have := (List.pairwise_cons.mp hp).1 y hy
        unfold consecutive at hcd
        omega

theorem chain_nodup {l : List Card} (h : List.Chain' consecutive l) : l.Nodup :=
  (chain_pairwise_rank_lt l h).imp (fun hlt => by
    intro he
    rw [he] at hlt
    omega)

theorem chain_sorted {l : List Card} (h : List.Chain' consecutive l) :
    l.Sorted cardLE :=
  (chain_pairwise_rank_lt l h).imp (fun hlt => Or.inl hlt)

theorem filter_eq_takeWhile_of_sorted (p : Card → Bool) :
    ∀ (t : List Card) (c : Card),
      (∀ x ∈ c :: t, ∀ y ∈ c :: t, ∀ z ∈ c :: t,
        cardLE x y → cardLE y z → p x = true → p z = true → p y = true) →
      (∀ y ∈ t, cardLE c y) → t.Sorted cardLE →
      p c = true → t.filter p = t.takeWhile p := by
  intro t
  induction t with
  | nil => intro c _ _ _ _; rfl
  | cons d t' ih =>
    intro c hconv hall ht hc
    by_cases hd : p d
    · rw [List.filter_cons_of_pos hd, List.takeWhile_cons_of_pos hd]
      refine congrArg (d :: ·) ?_
      refine ih d ?_ (fun y hy => (List.sorted_cons.mp ht).1 y hy)
        (List.sorted_cons.mp ht).2 hd
      intro x hx y hy z hz
      exact hconv x (List.mem_cons_of_mem c hx) y (List.mem_cons_of_mem c hy)
        z (List.mem_cons_of_mem c hz)
    · rw [List.filter_cons_of_neg (by simpa using hd), List.takeWhile_cons_of_neg (by simpa using hd)]
      rw [List.filter_eq_nil_iff.mpr]
      intro y hy
      intro hpy
      refine hd (hconv c (List.mem_cons_self _ _) d
        (List.mem_cons_of_mem c (List.mem_cons_self _ _))
        y (List.mem_cons_of_mem c (List.mem_cons_of_mem d hy))
        (hall d (List.mem_cons_self d t')) ?_ hc hpy)
      exact (List.sorted_cons.mp ht).1 y hy

theorem filter_convex_infix (p : Card → Bool) :
    ∀ (l : List Card),
      (∀ x ∈ l, ∀ y ∈ l, ∀ z ∈ l,
        cardLE x y → cardLE y z → p x = true → p z = true → p y = true) →
      l.Sorted cardLE → l.filter p <:+: l := by
  intro l
  induction l with
  | nil => exact fun _ _ => List.infix_rfl
  | cons c t ih =>
    intro hconv hs
    obtain ⟨hall, ht⟩ := List.sorted_cons.mp hs
    by_cases hc : p c
    · rw [List.filter_cons_of_pos hc,
        filter_eq_takeWhile_of_sorted p t c hconv hall ht hc]
      have hpre : t.takeWhile p <+: t := List.takeWhile_prefix p
      obtain ⟨s, hs⟩ := hpre
      exact ⟨[], s, by rw [List.nil_append, List.cons_append, hs]⟩
    · rw [List.filter_cons_of_neg (by simpa using hc)]
      refine List.infix_cons (ih ?_ ht)
      intro x hx y hy z hz
      exact hconv x (List.mem_cons_of_mem c hx) y (List.mem_cons_of_mem c hy)
        z (List.mem_cons_of_mem c hz)

theorem dedupAdj_of_nodup : ∀ (l : List Card), l.Nodup → dedupAdj l = l := by
  intro l
  induction l with
  | nil => intro _; rfl
  | cons c t ih =>
    intro hnd
    cases t with
    | nil => rfl
    | cons d t' =>
      have hcd : c ≠ d := by
        intro he
        exact (List.nodup_cons.mp hnd).1 (he ▸ List.mem_cons_self d t')
      rw [show dedupAdj (c :: d :: t') =
          if c = d then dedupAdj (d :: t') else c :: dedupAdj (d :: t') from rfl,
        if_neg hcd, ih (List.Nodup.of_cons hnd)]

theorem uniqueSorted_of_nodup {l : List Card} (h : l.Nodup) :
    uniqueSorted l = sortCards l := by
  unfold uniqueSorted
  exact dedupAdj_of_nodup _ ((sortCards_perm l).nodup_iff.mpr h)

theorem dedupAdj_subset : ∀ (l : List Card), ∀ x ∈ dedupAdj l, x ∈ l := by
  intro l
  induction l with
  | nil => intro x hx; cases hx
  | cons c t ih =>
    intro x hx
    cases t with
    | nil => exact hx
    | cons d t' =>
      rw [show dedupAdj (c :: d :: t') =
          if c = d then dedupAdj (d :: t') else c :: dedupAdj (d :: t') from rfl] at hx
      by_cases hcd : c = d
      · rw [if_pos hcd] at hx
        exact List.mem_cons_of_mem c (ih x hx)
      · rw [if_neg hcd] at hx
        rcases List.mem_cons.mp hx with rfl | hx
        · exact List.mem_cons_self _ _
        · exact List.mem_cons_of_mem c (ih x hx)

theorem mem_uniqueSorted_subset {l : List Card} {x : Card} (hx : x ∈ uniqueSorted l) :
    x ∈ l :=
  mem_sortCards.mp (dedupAdj_subset _ x hx)

theorem generate_sets_kind {cards : List Card} {m : Meld} (hm : m ∈ generate_sets cards) :
    m.kind = .set := by
  obtain ⟨r, combo, -, -, rfl⟩ := generate_sets_sound hm
  rfl

theorem generate_runs_kind {cards : List Card} {m : Meld} (hm : m ∈ generate_runs cards) :
    m.kind = .run := by
  unfold generate_runs at hm
  simp only [List.mem_flatMap, List.mem_map] at hm
  obtain ⟨s, -, b, -, w, -, rfl⟩ := hm
  rfl

/-- Every meld emitted by `generate_runs` is ≥ 3 cards of one suit in a
strictly consecutive ascending chain. -/
theorem generate_runs_sound {cards : List Card} {m : Meld}
    (hm : m ∈ generate_runs cards) :
    3 ≤ m.cards.length ∧ (∃ su, ∀ x ∈ m.cards, x.suit = su) ∧
      List.Chain' consecutive m.cards := by
  unfold generate_runs at hm
  simp only [List.mem_flatMap, List.mem_map] at hm
  obtain ⟨su, hsu, b, hb, w, hw, rfl⟩ := hm
  obtain ⟨hbch, hbsub⟩ := chainBlocksGo_sound _ _ b hb
  obtain ⟨len, ws, h3, hwslen, rfl⟩ := mem_blockWindows.mp hw
  have hwch : List.Chain' consecutive ((b.drop ws).take len) :=
    List.Chain'.take (List.Chain'.drop hbch ws) len
  have hwlen : ((b.drop ws).take len).length = len := by
    rw [List.length_take, List.length_drop]
    omega
  have hwsorted : ((b.drop ws).take len).Sorted cardLE := chain_sorted hwch
  have hcards : (Meld.new .run ((b.drop ws).take len)).cards = (b.drop ws).take len := by
    show sortCards _ = _
    exact List.Sorted.insertionSort_eq hwsorted
  rw [hcards]
  refine ⟨by omega, ⟨su, ?_⟩, hwch⟩
  intro x hx
  have hxb : x ∈ b := ((List.take_subset _ _).trans (List.drop_subset _ _)) hx
  have hxg : x ∈ suitGroup cards su := mem_uniqueSorted_subset (hbsub x hxb)
  simpa using (List.mem_filter.mp hxg).2

/-- Every sorted, strictly consecutive, same-suit selection of 3+ cards
of a duplicate-free hand is produced by `generate_runs`. -/
theorem generate_runs_complete {hand s : List Card}
    (hnd : hand.Nodup) (h3 : 3 ≤ s.length)
    (hchain : List.Chain' consecutive s)
    (hsuit : ∃ su, ∀ x ∈ s, x.suit = su)
    (hsub : ∀ x ∈ s, x ∈ hand) :
    ∃ m ∈ generate_runs hand, m.cards = s := by
  obtain ⟨c0, srest, rfl⟩ : ∃ c0 srest, s = c0 :: srest := by
    cases s with
    | nil => simp at h3
    | cons a t => exact ⟨a, t, rfl⟩
  obtain ⟨su, hsu⟩ := hsuit
  have hsnd : (c0 :: srest).Nodup := chain_nodup hchain
  have hssorted : (c0 :: srest).Sorted cardLE := chain_sorted hchain
  have hsumem : su ∈ suitsOf hand := by
    unfold suitsOf
    rw [List.mem_dedup]
    exact List.mem_map.mpr ⟨c0, hsub c0 (List.mem_cons_self _ _),
      hsu c0 (List.mem_cons_self _ _)⟩
  have hgnd : (suitGroup hand su).Nodup := hnd.filter _
  have huq : uniqueSorted (suitGroup hand su) = sortCards (suitGroup hand su) :=
    uniqueSorted_of_nodup hgnd
  have hund : (sortCards (suitGroup hand su)).Nodup :=
    (sortCards_perm _).nodup_iff.mpr hgnd
  have husorted : (sortCards (suitGroup hand su)).Sorted cardLE := sortCards_sorted _
  have hsubu : ∀ x ∈ c0 :: srest, x ∈ sortCards (suitGroup hand su) := by
    intro x hx
    rw [mem_sortCards]
    exact List.mem_filter.mpr ⟨hsub x hx, by simpa using hsu x hx⟩
  have husuit : ∀ x ∈ sortCards (suitGroup hand su), x.suit = su := by
    intro x hx
    rw [mem_sortCards] at hx
    simpa using (List.mem_filter.mp hx).2
  have hbnd := chain_rank_bounds srest c0 hchain
  have hsurj := chain_rank_surj srest c0 hchain
  have hconv : ∀ x ∈ sortCards (suitGroup hand su), ∀ y ∈ sortCards (suitGroup hand su),
      ∀ z ∈ sortCards (suitGroup hand su),
      cardLE x y → cardLE y z → decide (x ∈ c0 :: srest) = true →
      decide (z ∈ c0 :: srest) = true → decide (y ∈ c0 :: srest) = true := by
    intro x _ y hy z _ hxy hyz hxs hzs
    rw [decide_eq_true_eq] at hxs hzs ⊢
    have hxr : x.rank ≤ y.rank := by
      rcases hxy with h | ⟨h, _⟩ <;> omega
    have hyr : y.rank ≤ z.rank := by
      rcases hyz with h | ⟨h, _⟩ <;> omega
    have hxb := hbnd x hxs
    have hzb := hbnd z hzs
    obtain ⟨w, hwmem, hwr⟩ := hsurj (y.rank - c0.rank) (by omega)
    have hweq : w = y := by
      have hws : w.suit = su := hsu w hwmem
      have hys : y.suit = su := husuit y hy
      have hwy : w.rank = y.rank := by omega
      cases w; cases y
      simp_all
    exact hweq ▸ hwmem
  have hfeq : (sortCards (suitGroup hand su)).filter
      (fun x => decide (x ∈ c0 :: srest)) = c0 :: srest := by
    refine List.eq_of_perm_of_sorted ?_ ?_ hssorted
    · rw [List.perm_ext_iff_of_nodup (hund.filter _) hsnd]
      intro a
      simp only [List.mem_filter, decide_eq_true_eq]
      constructor
      · rintro ⟨-, ha⟩; exact ha
      · intro ha; exact ⟨hsubu a ha, ha⟩
    · exact List.Pairwise.sublist (List.filter_sublist _) husorted
  have hinf : (c0 :: srest) <:+: sortCards (suitGroup hand su) := by
    rw [← hfeq]
    exact filter_convex_infix _ _ hconv husorted
  obtain ⟨b, hbmem, hbinf⟩ := infix_in_block (sortCards (suitGroup hand su)).length
    (sortCards (suitGroup hand su)) (le_refl _) (c0 :: srest)
    (by simp) hchain hinf
  refine ⟨Meld.new .run (c0 :: srest), ?_, ?_⟩
  · unfold generate_runs
    simp only [List.mem_flatMap, List.mem_map]
    refine ⟨su, hsumem, b, ?_, c0 :: srest, infix_mem_blockWindows h3 hbinf, rfl⟩
    show b ∈ chainBlocks (uniqueSorted (suitGroup hand su))
    rw [huq]
    exact hbmem
  · show sortCards (c0 :: srest) = c0 :: srest
    exact List.Sorted.insertionSort_eq hssorted

/-- Every meld emitted by `generate_sets` on a valid duplicate-free hand
is 3 or 4 cards of one rank with pairwise distinct suits. -/
theorem generate_sets_wf {cards : List Card} {m : Meld}
    (hnd : cards.Nodup) (hv : ∀ c ∈ cards, c.valid)
    (hm : m ∈ generate_sets cards) :
    (m.cards.length = 3 ∨ m.cards.length = 4) ∧
      (∃ r, ∀ x ∈ m.cards, x.rank = r) ∧
      List.Pairwise (fun a b => a.suit ≠ b.suit) m.cards := by
  obtain ⟨r, combo, hsl, h3, rfl⟩ := generate_sets_sound hm
  have hcards : (Meld.new .set combo).cards = sortCards combo := rfl
  have hperm : List.Perm (sortCards combo) combo := sortCards_perm combo
  have hgle : (rankGroup cards r).length ≤ 4 := rankGroup_length_le hnd hv
  have hclen : combo.length ≤ 4 := le_trans hsl.length_le hgle
  have hcnd : combo.Nodup := hsl.nodup (hnd.filter _)
  rw [hcards]
  refine ⟨?_, ⟨r, ?_⟩, ?_⟩
  · rw [hperm.length_eq]; omega
  · intro x hx
    exact rankGroup_rank (hsl.subset (mem_sortCards.mp hx))
  · have hnd' : (sortCards combo).Nodup := hperm.nodup_iff.mpr hcnd
    refine List.Pairwise.imp_of_mem ?_ hnd'
    intro a b ha hb hab
    have har : a.rank = r := rankGroup_rank (hsl.subset (mem_sortCards.mp ha))
    have hbr : b.rank = r := rankGroup_rank (hsl.subset (mem_sortCards.mp hb))
    intro hsuit
    apply hab
    cases a; cases b
    simp_all

/-- Every candidate meld of a duplicate-free hand has duplicate-free
cards. -/
theorem candidates_cards_nodup {cards : List Card} (hnd : cards.Nodup) :
    ∀ m ∈ generate_candidates cards, m.cards.Nodup := by
  intro m hm
  rcases generate_candidates_subset hm with hs | hr
  · obtain ⟨r, combo, hsl, h3, rfl⟩ := generate_sets_sound hs
    show (sortCards combo).Nodup
    exact (sortCards_perm combo).nodup_iff.mpr (hsl.nodup (hnd.filter _))
  · exact chain_nodup (generate_runs_sound hr).2.2

/-- A duplicate-free concatenation of meld card lists forces the melds
to be pairwise disjoint. -/
theorem flatMap_nodup_pairwise :
    ∀ (M : List Meld), (M.flatMap Meld.cards).Nodup → List.Pairwise MeldDisjoint M := by
  intro M
  induction M with
  | nil => intro _; exact List.Pairwise.nil
  | cons m M' ih =>
    intro hnd
    rw [List.flatMap_cons] at hnd
    refine List.Pairwise.cons ?_ (ih (List.Nodup.of_append_right hnd))
    intro m2 hm2 x hxm hxm2
    exact List.disjoint_of_nodup_append hnd hxm (List.mem_flatMap.mpr ⟨m2, hm2, hxm2⟩)

theorem flatMap_id_nodup_parts :
    ∀ (L : List (List Card)), (L.flatMap id).Nodup → ∀ s ∈ L, s.Nodup := by
  intro L
  induction L with
  | nil => intro _ s hs; cases hs
  | cons t L' ih =>
    intro hnd s hs
    rw [List.flatMap_cons] at hnd
    rcases List.mem_cons.mp hs with rfl | hs
    · exact List.Nodup.of_append_left hnd
    · exact ih (List.Nodup.of_append_right hnd) s hs

/-- The all-deadwood branch is always a reachable leaf. -/
theorem leaf_all_dead (cands : List Meld) :
    ∀ (rem : List Card) (cur : List Meld) (dw : List Card),
      Leaf cands rem cur dw cur (dw ++ rem) := by
  intro rem
  induction rem with
  | nil =>
    intro cur dw
    simpa using Leaf.nil cur dw
  | cons c rest ih =>
    intro cur dw
    have := Leaf.dead (ih cur (dw ++ [c]))
    simpa using this

theorem analyze_hand_eq (hand : List Card) :
    analyze_hand hand = searchGo (generate_candidates (sortCards hand))
      (sortCards hand).length (sortCards hand) [] []
      (MeldAnalysis.make [] (sortCards hand)) := rfl

/-- The analysis result is always the `MeldAnalysis` of some leaf of the
search tree rooted at the sorted hand. -/
theorem analyze_hand_leaf (hand : List Card) :
    ∃ M D, Leaf (generate_candidates (sortCards hand)) (sortCards hand) [] [] M D ∧
      analyze_hand hand = MeldAnalysis.make M D := by
  have hs := (searchGo_spec (generate_candidates (sortCards hand)) (sortCards hand).length
      (sortCards hand) (le_refl _) [] [] (MeldAnalysis.make [] (sortCards hand))).1
  rw [← analyze_hand_eq] at hs
  rcases hs with heq | ⟨M, D, hleaf, heq⟩
  · refine ⟨[], sortCards hand, ?_, heq⟩
    simpa using leaf_all_dead (generate_candidates (sortCards hand)) (sortCards hand) [] []
  · exact ⟨M, D, hleaf, heq⟩

/-- No leaf of the search tree beats the analysis result. -/
theorem analyze_hand_opt (hand : List Card) :
    ∀ M D, Leaf (generate_candidates (sortCards hand)) (sortCards hand) [] [] M D →
      ¬ betterThan (MeldAnalysis.make M D) (analyze_hand hand) := by
  have hs := (searchGo_spec (generate_candidates (sortCards hand)) (sortCards hand).length
      (sortCards hand) (le_refl _) [] [] (MeldAnalysis.make [] (sortCards hand))).2.2
  rw [← analyze_hand_eq] at hs
  exact hs

theorem deadwoodValue_perm {l1 l2 : List Card} (h : List.Perm l1 l2) :
    deadwoodValue l1 = deadwoodValue l2 :=
  (h.map Card.value).sum_eq

/-! ### Claim C5: the analysis is an exact partition of the hand -/

/-- C5: the melds and deadwood returned by `analyze_hand` form an exact
partition of the input: their union as a card multiset equals the input
hand, the melds are pairwise card-disjoint, and no meld card occurs in
the deadwood. -/
theorem C5_analyze_hand_partition (hand : List Card) (hnd : hand.Nodup)
    (hlen : hand.length ≤ 11) :
    List.Perm ((analyze_hand hand).melds.flatMap Meld.cards ++ (analyze_hand hand).deadwood)
      hand ∧
    List.Pairwise MeldDisjoint (analyze_hand hand).melds ∧
    (∀ m ∈ (analyze_hand hand).melds, ∀ x ∈ m.cards, x ∉ (analyze_hand hand).deadwood) := by
  obtain ⟨M, D, hleaf, heq⟩ := analyze_hand_leaf hand
  have hsnd : (sortCards hand).Nodup := (sortCards_perm hand).nodup_iff.mpr hnd
  obtain ⟨Madd, Dadd, hM, hD, hmem, hperm⟩ :=
    leaf_partition _ (candidates_cards_nodup hsnd) hleaf hsnd
  rw [List.nil_append] at hM hD
  subst hM hD
  have hmelds : (analyze_hand hand).melds = M := by rw [heq]; rfl
  have hdw : (analyze_hand hand).deadwood = D := by rw [heq]; rfl
  rw [hmelds, hdw]
  have hperm' : List.Perm (M.flatMap Meld.cards ++ D) hand :=
    hperm.trans (sortCards_perm hand)
  have hndall : (M.flatMap Meld.cards ++ D).Nodup := hperm'.nodup_iff.mpr hnd
  refine ⟨hperm', flatMap_nodup_pairwise _ (List.Nodup.of_append_left hndall), ?_⟩
  intro m hm x hxm
  exact List.disjoint_of_nodup_append hndall (List.mem_flatMap.mpr ⟨m, hm, hxm⟩)

/-- Witness for C5 on a concrete 5-card hand. -/
theorem C5_analyze_hand_partition_witness :
    List.Perm ((analyze_hand [⟨2,0⟩,⟨2,1⟩,⟨2,2⟩,⟨9,3⟩,⟨11,0⟩]).melds.flatMap Meld.cards ++
        (analyze_hand [⟨2,0⟩,⟨2,1⟩,⟨2,2⟩,⟨9,3⟩,⟨11,0⟩]).deadwood)
      [⟨2,0⟩,⟨2,1⟩,⟨2,2⟩,⟨9,3⟩,⟨11,0⟩] ∧
    List.Pairwise MeldDisjoint (analyze_hand [⟨2,0⟩,⟨2,1⟩,⟨2,2⟩,⟨9,3⟩,⟨11,0⟩]).melds ∧
    (∀ m ∈ (analyze_hand [⟨2,0⟩,⟨2,1⟩,⟨2,2⟩,⟨9,3⟩,⟨11,0⟩]).melds,
      ∀ x ∈ m.cards, x ∉ (analyze_hand [⟨2,0⟩,⟨2,1⟩,⟨2,2⟩,⟨9,3⟩,⟨11,0⟩]).deadwood) :=
  C5_analyze_hand_partition [⟨2,0⟩,⟨2,1⟩,⟨2,2⟩,⟨9,3⟩,⟨11,0⟩] (by decide) (by decide)

/-! ### Claim C8: well-formedness of the reported melds -/

/-- C8: every meld in the analysis of a valid duplicate-free hand is
well-formed — a set is exactly 3 or 4 cards of one rank with pairwise
distinct suits, and a run is at least 3 cards of one suit whose ranks
are strictly consecutive ascending. -/
theorem C8_analyze_hand_melds_wellformed (hand : List Card) (hnd : hand.Nodup)
    (hv : ∀ c ∈ hand, c.valid) :
    ∀ m ∈ (analyze_hand hand).melds,
      (m.kind = .set →
        (m.cards.length = 3 ∨ m.cards.length = 4) ∧
        (∃ r, ∀ x ∈ m.cards, x.rank = r) ∧
        List.Pairwise (fun a b => a.suit ≠ b.suit) m.cards) ∧
      (m.kind = .run →
        3 ≤ m.cards.length ∧
        (∃ su, ∀ x ∈ m.cards, x.suit = su) ∧
        List.Chain' consecutive m.cards) := by
  intro m hm
  obtain ⟨M, D, hleaf, heq⟩ := analyze_hand_leaf hand
  have hsnd : (sortCards hand).Nodup := (sortCards_perm hand).nodup_iff.mpr hnd
  have hsv : ∀ c ∈ sortCards hand, c.valid := fun c hc => hv c (mem_sortCards.mp hc)
  obtain ⟨Madd, Dadd, hM, hD, hmem, -⟩ :=
    leaf_partition _ (candidates_cards_nodup hsnd) hleaf hsnd
  rw [heq] at hm
  have hm' : m ∈ M := hm
  rw [hM, List.nil_append] at hm'
  have hcand : m ∈ generate_candidates (sortCards hand) := hmem m hm'
  rcases generate_candidates_subset hcand with hs | hr
  · have hk := generate_sets_kind hs
    refine ⟨fun _ => generate_sets_wf hsnd hsv hs, fun hrk => ?_⟩
    rw [hk] at hrk
    cases hrk
  · have hk := generate_runs_kind hr
    refine ⟨fun hsk => ?_, fun _ => generate_runs_sound hr⟩
    rw [hk] at hsk
    cases hsk

/-- Witness for C8 on a concrete 4-card hand holding a set. -/
theorem C8_analyze_hand_melds_wellformed_witness :
    ([⟨2,0⟩,⟨2,1⟩,⟨2,3⟩,⟨7,2⟩] : List Card).Nodup ∧
    ∀ m ∈ (analyze_hand [⟨2,0⟩,⟨2,1⟩,⟨2,3⟩,⟨7,2⟩]).melds,
      (m.kind = .set →
        (m.cards.length = 3 ∨ m.cards.length = 4) ∧
        (∃ r, ∀ x ∈ m.cards, x.rank = r) ∧
        List.Pairwise (fun a b => a.suit ≠ b.suit) m.cards) ∧
      (m.kind = .run →
        3 ≤ m.cards.length ∧
        (∃ su, ∀ x ∈ m.cards, x.suit = su) ∧
        List.Chain' consecutive m.cards) :=
  ⟨by decide, C8_analyze_hand_melds_wellformed [⟨2,0⟩,⟨2,1⟩,⟨2,3⟩,⟨7,2⟩] (by decide) (by decide)⟩

/-! ### Claim C2: minimality of the reported deadwood value

The space of alternative partitions is modelled from the spec: a valid
meld is a set ("3 or 4 cards of the same rank") or a run ("3 or more
cards of the same suit with consecutive ranks"), and a partition splits
the hand, as a card multiset, into valid melds plus deadwood. -/

/-- Modelled from the spec: the card list of one valid meld. -/
def SpecMeldCards (s : List Card) : Prop :=
  ((s.length = 3 ∨ s.length = 4) ∧ ∃ r, ∀ x ∈ s, x.rank = r) ∨
  (3 ≤ s.length ∧ (∃ su, ∀ x ∈ s, x.suit = su) ∧
    List.Chain' consecutive (sortCards s))

/-- Modelled from the spec: a partition of the hand into valid melds
plus deadwood. -/
def SpecPartition (hand : List Card) (Ms : List (List Card)) (D : List Card) : Prop :=
  (∀ s ∈ Ms, SpecMeldCards s) ∧ List.Perm (Ms.flatMap id ++ D) hand

/-- Every spec-valid meld drawn from a duplicate-free hand has a
candidate meld with the same cards. -/
theorem spec_meld_candidate {hand s : List Card} (hnd : hand.Nodup)
    (hspec : SpecMeldCards s) (hsnd : s.Nodup) (hsub : ∀ x ∈ s, x ∈ hand) :
    ∃ m ∈ generate_candidates hand, List.Perm m.cards s := by
  rcases hspec with ⟨hlen, r, hr⟩ | ⟨hlen, hsuit, hchain⟩
  · have h3 : 3 ≤ (sortCards s).length := by rw [sortCards_length]; omega
    obtain ⟨m, hm, hcards⟩ := generate_sets_complete h3
      ((sortCards_perm s).nodup_iff.mpr hsnd) (sortCards_sorted s)
      ⟨r, fun x hx => hr x (mem_sortCards.mp hx)⟩
      (fun x hx => hsub x (mem_sortCards.mp hx))
    obtain ⟨m', hm', he⟩ := generate_candidates_complete (Or.inl hm)
    exact ⟨m', hm', by rw [he, hcards]; exact sortCards_perm s⟩
  · obtain ⟨su, hsu⟩ := hsuit
    have h3 : 3 ≤ (sortCards s).length := by rw [sortCards_length]; omega
    obtain ⟨m, hm, hcards⟩ := generate_runs_complete hnd h3 hchain
      ⟨su, fun x hx => hsu x (mem_sortCards.mp hx)⟩
      (fun x hx => hsub x (mem_sortCards.mp hx))
    obtain ⟨m', hm', he⟩ := generate_candidates_complete (Or.inr hm)
    exact ⟨m', hm', by rw [he, hcards]; exact sortCards_perm s⟩

/-- A whole spec partition translates, meld by meld, into candidate
melds with permuted card lists. -/
theorem spec_melds_candidates {hand : List Card} (hnd : hand.Nodup) :
    ∀ (Ms : List (List Card)), (∀ s ∈ Ms, SpecMeldCards s) → (∀ s ∈ Ms, s.Nodup) →
      (∀ s ∈ Ms, ∀ x ∈ s, x ∈ hand) →
      ∃ Ms' : List Meld, (∀ m ∈ Ms', m ∈ generate_candidates hand) ∧
        (∀ m ∈ Ms', m.cards ≠ []) ∧
        List.Forall₂ (fun (m : Meld) (s : List Card) => List.Perm m.cards s) Ms' Ms := by
  intro Ms
  induction Ms with
  | nil => intro _ _ _; exact ⟨[], by simp, by simp, List.Forall₂.nil⟩
  | cons s Ms0 ih =>
    intro hspec hnds hsub
    obtain ⟨m, hm, hperm⟩ := spec_meld_candidate hnd (hspec s (List.mem_cons_self _ _))
      (hnds s (List.mem_cons_self _ _)) (hsub s (List.mem_cons_self _ _))
    obtain ⟨Ms', hmem, hne, hf⟩ := ih (fun t ht => hspec t (List.mem_cons_of_mem s ht))
      (fun t ht => hnds t (List.mem_cons_of_mem s ht))
      (fun t ht => hsub t (List.mem_cons_of_mem s ht))
    have hmne : m.cards ≠ [] := by
      intro h0
      have hl := hperm.length_eq
      rw [h0] at hl
      rcases hspec s (List.mem_cons_self _ _) with ⟨hlen, -⟩ | ⟨hlen, -⟩ <;>
        simp at hl <;> omega
    refine ⟨m :: Ms', ?_, ?_, List.Forall₂.cons hperm hf⟩
    · intro m' hm'
      rcases List.mem_cons.mp hm' with rfl | hm'
      · exact hm
      · exact hmem m' hm'
    · intro m' hm'
      rcases List.mem_cons.mp hm' with rfl | hm'
      · exact hmne
      · exact hne m' hm'

theorem forall₂_perm_flatMap :
    ∀ {Ms' : List Meld} {Ms : List (List Card)},
      List.Forall₂ (fun (m : Meld) (s : List Card) => List.Perm m.cards s) Ms' Ms →
      List.Perm (Ms'.flatMap Meld.cards) (Ms.flatMap id) := by
  intro Ms' Ms h
  induction h with
  | nil => exact List.Perm.refl _
  | cons hp _ ih =>
    rw [List.flatMap_cons, List.flatMap_cons]
    exact hp.append ih

/-- C2: the deadwood value reported by `analyze_hand` is minimal over
all spec-valid partitions of the hand into melds plus deadwood, and
among partitions achieving that minimum the result has the maximum
number of melds. -/
theorem C2_analyze_hand_minimal (hand : List Card) (hnd : hand.Nodup)
    (hlen : hand.length ≤ 11) (Ms : List (List Card)) (D : List Card)
    (hpart : SpecPartition hand Ms D) :
    (analyze_hand hand).deadwood_value ≤ deadwoodValue D ∧
      (deadwoodValue D = (analyze_hand hand).deadwood_value →
        Ms.length ≤ (analyze_hand hand).melds.length) := by
  obtain ⟨hspec, hperm⟩ := hpart
  have hall : (Ms.flatMap id ++ D).Nodup := hperm.nodup_iff.mpr hnd
  have hMnd : (Ms.flatMap id).Nodup := List.Nodup.of_append_left hall
  have hparts : ∀ s ∈ Ms, s.Nodup := flatMap_id_nodup_parts Ms hMnd
  have hsnd : (sortCards hand).Nodup := (sortCards_perm hand).nodup_iff.mpr hnd
  have hsub' : ∀ s ∈ Ms, ∀ x ∈ s, x ∈ sortCards hand := by
    intro s hs x hx
    exact mem_sortCards.mpr
      (hperm.subset (List.mem_append_left _ (List.mem_flatMap.mpr ⟨s, hs, hx⟩)))
  obtain ⟨Ms', hcand, hne, hf⟩ := spec_melds_candidates hsnd Ms hspec hparts hsub'
  have hflat : List.Perm (Ms'.flatMap Meld.cards) (Ms.flatMap id) := forall₂_perm_flatMap hf
  have hlen' : Ms'.length = Ms.length := hf.length_eq
  have hdisj : List.Pairwise MeldDisjoint Ms' :=
    flatMap_nodup_pairwise Ms' (hflat.nodup_iff.mpr hMnd)
  have hperm' : List.Perm (Ms'.flatMap Meld.cards ++ D) (sortCards hand) :=
    ((hflat.append_right D).trans hperm).trans (sortCards_perm hand).symm
  obtain ⟨M, D0, hleaf, hMp, hDp⟩ := leaf_complete (generate_candidates (sortCards hand))
    (sortCards hand).length (sortCards hand) rfl [] [] Ms' D hsnd hcand hne hdisj
    (by intro x _ hx; simp at hx)
    (by intro x _ mm hmm; simp at hmm)
    hperm'
  have hopt := analyze_hand_opt hand M D0 hleaf
  unfold betterThan at hopt
  push_neg at hopt
  have hadv : (MeldAnalysis.make M D0).deadwood_value = deadwoodValue D := by
    show deadwoodValue D0 = deadwoodValue D
    have := deadwoodValue_perm hDp
    simpa using this
  have haml : (MeldAnalysis.make M D0).melds.length = Ms.length := by
    show M.length = Ms.length
    rw [hMp.length_eq]
    simpa using hlen'
  constructor
  · have h1 := hopt.1
    rw [hadv] at h1
    exact h1
  · intro hdeq
    have h2 := hopt.2 (by rw [hadv, hdeq])
    rw [haml] at h2
    exact h2

/-- Witness for C2: a 4-card hand against the partition holding its
4-5-6 spade run with the king of hearts as deadwood. -/
theorem C2_analyze_hand_minimal_witness :
    (analyze_hand [⟨4,0⟩,⟨5,0⟩,⟨6,0⟩,⟨13,1⟩]).deadwood_value ≤ deadwoodValue [⟨13,1⟩] ∧
      (deadwoodValue [⟨13,1⟩] = (analyze_hand [⟨4,0⟩,⟨5,0⟩,⟨6,0⟩,⟨13,1⟩]).deadwood_value →
        ([[⟨4,0⟩,⟨5,0⟩,⟨6,0⟩]] : List (List Card)).length ≤
          (analyze_hand [⟨4,0⟩,⟨5,0⟩,⟨6,0⟩,⟨13,1⟩]).melds.length) := by
  have hpart : SpecPartition [⟨4,0⟩,⟨5,0⟩,⟨6,0⟩,⟨13,1⟩] [[⟨4,0⟩,⟨5,0⟩,⟨6,0⟩]] [⟨13,1⟩] := by
    refine ⟨?_, by decide⟩
    intro s hs
    rw [List.mem_singleton] at hs
    subst hs
    refine Or.inr ⟨by decide, ⟨0, by decide⟩, ?_⟩
    have hse : sortCards ([⟨4,0⟩,⟨5,0⟩,⟨6,0⟩] : List Card) = [⟨4,0⟩,⟨5,0⟩,⟨6,0⟩] := by decide
    rw [hse, List.chain'_cons, List.chain'_cons]
    refine ⟨by decide, by decide, ?_⟩
    simp
  exact C2_analyze_hand_minimal [⟨4,0⟩,⟨5,0⟩,⟨6,0⟩,⟨13,1⟩] (by decide) (by decide)
    [[⟨4,0⟩,⟨5,0⟩,⟨6,0⟩]] [⟨13,1⟩] hpart

/-! ### Layoff lemmas -/

/-- Accumulator-free form of the `layoff_cards` loop. -/
def layoffRec : List Card → List Meld → List Card × List Card
  | [], _ => ([], [])
  | c :: rest, ms =>
    match attachFirst c ms with
    | some ms' =>
      let p := layoffRec rest ms'
      (p.1, c :: p.2)
    | none =>
      let p := layoffRec rest ms
      (c :: p.1, p.2)

theorem layoffGo_eq (dw : List Card) :
    ∀ remaining laidOff ms, layoffGo dw remaining laidOff ms =
      (remaining ++ (layoffRec dw ms).1, laidOff ++ (layoffRec dw ms).2) := by
  induction dw with
  | nil => intro remaining laidOff ms; simp [layoffGo, layoffRec]
  | cons c rest ih =>
    intro remaining laidOff ms
    simp only [layoffGo, layoffRec]
    cases hA : attachFirst c ms with
    | some ms' => simp [hA, ih]
    | none => simp [hA, ih]

theorem layoff_cards_eq_rec (dw : List Card) (ms : List Meld) :
    layoff_cards dw ms = layoffRec dw ms := by
  simp [layoff_cards, layoffGo_eq]

theorem layoffRec_conserves (dw : List Card) :
    ∀ ms, (layoffRec dw ms).1.Sublist dw ∧ (layoffRec dw ms).2.Sublist dw ∧
      List.Perm ((layoffRec dw ms).1 ++ (layoffRec dw ms).2) dw := by
  induction dw with
  | nil => intro ms; simp [layoffRec]
  | cons c rest ih =>
    intro ms
    simp only [layoffRec]
    cases hA : attachFirst c ms with
    | some ms' =>
      obtain ⟨h1, h2, h3⟩ := ih ms'
      exact ⟨h1.cons c, h2.cons₂ c,
        ((List.perm_middle).trans (h3.cons c))⟩
    | none =>
      obtain ⟨h1, h2, h3⟩ := ih ms
      exact ⟨h1.cons₂ c, h2.cons c, by simpa using h3.cons c⟩

/-! ### Layoff, spec-side description

`specLayoffPass` and `specCanLayoff` are modelled from the spec text
(§4.2 points 3 and 4): a single left-to-right pass attaching each card
to the *first* meld (in meld-list order) that accepts it, a Set
accepting a card of the meld's rank and a Run accepting a card of its
suit adjacent to its current minimum or maximum rank.  They exist only
to be compared against the source-translated `layoff_cards` and
`Meld.canLayoff`. -/

/-- Modelled from the spec: acceptance condition for laying a card off
a meld. -/
def specCanLayoff (m : Meld) (c : Card) : Prop :=
  match m.kind with
  | .set => m.cards ≠ [] ∧ ∀ x ∈ m.cards, x.rank = c.rank
  | .run =>
    m.cards ≠ [] ∧ (∀ x ∈ m.cards, x.suit = c.suit) ∧
      ((∃ mn ∈ m.cards.map Card.rank, (∀ r ∈ m.cards.map Card.rank, mn ≤ r) ∧
          c.rank + 1 = mn) ∨
        (∃ mx ∈ m.cards.map Card.rank, (∀ r ∈ m.cards.map Card.rank, r ≤ mx) ∧
          c.rank = mx + 1))

instance (m : Meld) (c : Card) : Decidable (specCanLayoff m c) := by
  obtain ⟨k, cs⟩ := m
  cases k <;> (dsimp [specCanLayoff]; infer_instance)

/-- Modelled from the spec: index of the first meld, in meld-list
order, that accepts the card. -/
def firstAccept (c : Card) : List Meld → Option Nat
  | [] => none
  | m :: ms =>
    if specCanLayoff m c then some 0 else (firstAccept c ms).map (· + 1)

/-- Modelled from the spec: the greedy first-fit layoff pass, selecting
the first accepting meld by index and growing it in place. -/
def specLayoffPass : List Card → List Meld → List Card × List Card
  | [], _ => ([], [])
  | c :: rest, ms =>
    match firstAccept c ms with
    | some i =>
      let m := ms.getD i ⟨.set, []⟩
      let p := specLayoffPass rest (ms.set i (m.grow c))
      (p.1, c :: p.2)
    | none =>
      let p := specLayoffPass rest ms
      (c :: p.1, p.2)

/-- The well-formedness every real knocker meld has: non-empty, sets
are single-rank, runs are single-suit. -/
def WfMeld (m : Meld) : Prop :=
  m.cards ≠ [] ∧ (m.kind = .set → ∀ x ∈ m.cards, ∀ y ∈ m.cards, x.rank = y.rank) ∧
    (m.kind = .run → ∀ x ∈ m.cards, ∀ y ∈ m.cards, x.suit = y.suit)

theorem sorted_head_le {l : List Card} (hs : l.Sorted cardLE) {h0 : Card}
    (hh : l.head? = some h0) : ∀ x ∈ l, cardLE h0 x := by
  cases l with
  | nil => simp at hh
  | cons a t =>
    simp only [List.head?_cons, Option.some.injEq] at hh
    subst hh
    intro x hx
    rcases List.mem_cons.mp hx with rfl | hx
    · exact refl_of cardLE x
    · exact (List.sorted_cons.mp hs).1 x hx

theorem sorted_le_getLast {l : List Card} (hs : l.Sorted cardLE) {z : Card}
    (hz : l.getLast? = some z) : ∀ x ∈ l, cardLE x z := by
  induction l with
  | nil => simp at hz
  | cons a t ih =>
    intro x hx
    cases t with
    | nil =>
      simp only [List.getLast?_singleton, Option.some.injEq] at hz
      subst hz
      rcases List.mem_singleton.mp hx with rfl
      exact refl_of cardLE x
    | cons b t' =>
      have hz' : (b :: t').getLast? = some z := by
        simpa [List.getLast?_cons_cons] using hz
      have hst : (b :: t').Sorted cardLE := (List.sorted_cons.mp hs).2
      rcases List.mem_cons.mp hx with rfl | hx
      · have hzmem : z ∈ b :: t' := by
          obtain ⟨hne, heq⟩ := List.mem_getLast?_eq_getLast hz'
          exact heq ▸ List.getLast_mem hne
        exact (List.sorted_cons.mp hs).1 z hzmem
      · exact ih hst hz' x hx

theorem cardLE_rank {a b : Card} (h : cardLE a b) : a.rank ≤ b.rank := by
  unfold cardLE at h; omega

theorem sortCards_ne_nil {l : List Card} (h : l ≠ []) : sortCards l ≠ [] := by
  intro hc
  have := sortCards_length l
  rw [hc] at this
  exact h (List.length_eq_zero.mp this.symm)

/-- `Meld.canLayoff` agrees with the spec's description on well-formed
melds. -/
theorem canLayoff_iff_spec (m : Meld) (c : Card) (hm : WfMeld m) :
    m.canLayoff c = true ↔ specCanLayoff m c := by
  obtain ⟨k, cs⟩ := m
  obtain ⟨hne, hsetR, hrunS⟩ := hm
  cases k with
  | set =>
    cases cs with
    | nil => exact absurd rfl hne
    | cons c0 t =>
      have hr := hsetR rfl
      simp only [Meld.canLayoff, specCanLayoff, List.head?_cons, beq_iff_eq, ne_eq,
        List.cons_ne_nil, not_false_iff, true_and]
      constructor
      · intro h0 x hx
        have hx0 := hr x hx c0 (by simp)
        omega
      · intro hall
        exact hall c0 (by simp)
  | run =>
    cases cs with
    | nil => exact absurd rfl hne
    | cons c0 t =>
      have hs := hrunS rfl
      obtain ⟨a, u, hL⟩ : ∃ a u, sortCards (c0 :: t) = a :: u := by
        cases hL : sortCards (c0 :: t) with
        | nil => exact absurd hL (sortCards_ne_nil (by simp))
        | cons a u => exact ⟨a, u, rfl⟩
      have hamem : a ∈ c0 :: t := mem_sortCards.mp (by rw [hL]; simp)
      have hamin : ∀ x ∈ c0 :: t, a.rank ≤ x.rank := by
        intro x hx
        refine cardLE_rank (@sorted_head_le (a :: u) ?_ a (by simp) x ?_)
        · rw [← hL]; exact sortCards_sorted _
        · rw [← hL]; exact mem_sortCards.mpr hx
      set z := (a :: u).getLast (by simp) with hz
      have hzlast : (a :: u).getLast? = some z :=
        List.getLast?_eq_getLast_of_ne_nil (by simp)
      have hzmem : z ∈ c0 :: t := by
        refine mem_sortCards.mp ?_
        rw [hL]
        exact List.getLast_mem _
      have hzmax : ∀ x ∈ c0 :: t, x.rank ≤ z.rank := by
        intro x hx
        refine cardLE_rank (@sorted_le_getLast (a :: u) ?_ z hzlast x ?_)
        · rw [← hL]; exact sortCards_sorted _
        · rw [← hL]; exact mem_sortCards.mpr hx
      by_cases hsuit : c0.suit = c.suit
      · have hiff : (Meld.mk .run (c0 :: t)).canLayoff c = true ↔
            (c.rank + 1 = a.rank ∨ c.rank = z.rank + 1) := by
          by_cases h1 : c.rank + 1 = a.rank
          · simp [Meld.canLayoff, hL, hzlast, hsuit, h1]
          · by_cases h2 : c.rank = z.rank + 1
            · simp [Meld.canLayoff, hL, hzlast, hsuit, h1, h2]
            · simp [Meld.canLayoff, hL, hzlast, hsuit, h1, h2]
        rw [hiff]
        simp only [specCanLayoff, ne_eq, List.cons_ne_nil, not_false_iff, true_and]
        constructor
        · rintro (hmin | hmax)
          · refine ⟨?_, Or.inl ⟨a.rank, List.mem_map_of_mem Card.rank hamem, ?_, hmin⟩⟩
            · intro x hx
              exact (hs x hx c0 (by simp)).trans hsuit
            · intro r hr
              obtain ⟨x, hx, rfl⟩ := List.mem_map.mp hr
              exact hamin x hx
          · refine ⟨?_, Or.inr ⟨z.rank, List.mem_map_of_mem Card.rank hzmem, ?_, hmax⟩⟩
            · intro x hx
              exact (hs x hx c0 (by simp)).trans hsuit
            · intro r hr
              obtain ⟨x, hx, rfl⟩ := List.mem_map.mp hr
              exact hzmax x hx
        · rintro ⟨-, hmn | hmx⟩
          · obtain ⟨mn, hmem, hminall, hrank⟩ := hmn
            obtain ⟨x, hx, rfl⟩ := List.mem_map.mp hmem
            have h1 : a.rank ≤ x.rank := hamin x hx
            have h2 : x.rank ≤ a.rank := hminall a.rank (List.mem_map_of_mem Card.rank hamem)
            left; omega
          · obtain ⟨mx, hmem, hmaxall, hrank⟩ := hmx
            obtain ⟨x, hx, rfl⟩ := List.mem_map.mp hmem
            have h1 : x.rank ≤ z.rank := hzmax x hx
            have h2 : z.rank ≤ x.rank := hmaxall z.rank (List.mem_map_of_mem Card.rank hzmem)
            right; omega
      · have hfalse : (Meld.mk .run (c0 :: t)).canLayoff c = false := by
          simp [Meld.canLayoff, hsuit]
        rw [hfalse]
        simp only [Bool.false_eq_true, false_iff, specCanLayoff, ne_eq,
          List.cons_ne_nil, not_false_iff, true_and, not_and]
        intro hallsuit
        exact absurd (hallsuit c0 (by simp)) hsuit

instance (m : Meld) : Decidable (WfMeld m) := by
  unfold WfMeld; infer_instance

/-- Growing a meld by a card it accepts preserves well-formedness. -/
theorem wfMeld_grow {m : Meld} {c : Card} (hm : WfMeld m) (h : specCanLayoff m c) :
    WfMeld (m.grow c) := by
  obtain ⟨k, cs⟩ := m
  obtain ⟨hne, hsetR, hrunS⟩ := hm
  have hmem : ∀ x, x ∈ (Meld.grow ⟨k, cs⟩ c).cards ↔ x ∈ cs ∨ x = c := by
    intro x
    simp [Meld.grow, mem_sortCards]
  have hne' : (Meld.grow ⟨k, cs⟩ c).cards ≠ [] := by
    apply sortCards_ne_nil
    simp
  cases k with
  | set =>
    obtain ⟨-, hall⟩ := h
    refine ⟨hne', fun _ x hx y hy => ?_, fun hk => nomatch hk⟩
    have hx' := (hmem x).mp hx
    have hy' := (hmem y).mp hy
    have hrank : ∀ w, w ∈ cs ∨ w = c → w.rank = c.rank := by
      rintro w (hw | rfl)
      · exact hall w hw
      · rfl
    rw [hrank x hx', hrank y hy']
  | run =>
    obtain ⟨-, hall, -⟩ := h
    refine ⟨hne', ?_, fun _ x hx y hy => ?_⟩
    · intro hk
      simp [Meld.grow] at hk
    have hx' := (hmem x).mp hx
    have hy' := (hmem y).mp hy
    have hsuit : ∀ w, w ∈ cs ∨ w = c → w.suit = c.suit := by
      rintro w (hw | rfl)
      · exact hall w hw
      · rfl
    rw [hsuit x hx', hsuit y hy']

theorem firstAccept_spec (c : Card) :
    ∀ (l : List Meld) (i : Nat), firstAccept c l = some i →
      i < l.length ∧ specCanLayoff (l.getD i ⟨.set, []⟩) c := by
  intro l
  induction l with
  | nil => intro i h; simp [firstAccept] at h
  | cons m ms ih =>
    intro i h
    rw [firstAccept] at h
    by_cases hp : specCanLayoff m c
    · rw [if_pos hp] at h
      obtain rfl : (0 : Nat) = i := Option.some.injEq _ _ ▸ (by simpa using h)
      simpa using hp
    · rw [if_neg hp, Option.map_eq_some'] at h
      obtain ⟨j, hj, rfl⟩ := h
      obtain ⟨hlt, hget⟩ := ih j hj
      constructor
      · simpa using hlt
      · simpa using hget

/-- The inner mutate-first-accepting-meld loop agrees with the spec's
first-index formulation. -/
theorem attachFirst_eq_spec (c : Card) :
    ∀ ms : List Meld, (∀ m ∈ ms, WfMeld m) →
      attachFirst c ms =
        match firstAccept c ms with
        | some i => some (ms.set i ((ms.getD i ⟨.set, []⟩).grow c))
        | none => none := by
  intro ms
  induction ms with
  | nil => intro _; rfl
  | cons m ms ih =>
    intro hwf
    have hm := hwf m (by simp)
    by_cases hcl : specCanLayoff m c
    · have hb : m.canLayoff c = true := (canLayoff_iff_spec m c hm).mpr hcl
      simp [attachFirst, hb, firstAccept, hcl]
    · have hb : m.canLayoff c = false := by
        cases hcb : m.canLayoff c with
        | false => rfl
        | true => exact absurd ((canLayoff_iff_spec m c hm).mp hcb) hcl
      rw [firstAccept, if_neg hcl]
      simp only [attachFirst, hb, Bool.false_eq_true, if_false,
        ih (fun m' hm' => hwf m' (by simp [hm']))]
      cases hF : firstAccept c ms with
      | none => simp
      | some i => simp

theorem layoffRec_eq_spec :
    ∀ (dw : List Card) (ms : List Meld), (∀ m ∈ ms, WfMeld m) →
      layoffRec dw ms = specLayoffPass dw ms := by
  intro dw
  induction dw with
  | nil => intro ms _; rfl
  | cons c rest ih =>
    intro ms hwf
    simp only [layoffRec, specLayoffPass]
    rw [attachFirst_eq_spec c ms hwf]
    cases hF : firstAccept c ms with
    | none => simp [ih ms hwf]
    | some i =>
      obtain ⟨hlt, hspec⟩ := firstAccept_spec c ms i hF
      have hwf' : ∀ m' ∈ ms.set i ((ms.getD i ⟨.set, []⟩).grow c), WfMeld m' := by
        intro m' hm'
        rcases List.mem_or_eq_of_mem_set hm' with hmem | rfl
        · exact hwf m' hmem
        · refine wfMeld_grow (hwf _ ?_) hspec
          rw [List.getD_eq_getElem?_getD, List.getElem?_eq_getElem hlt]
          simpa using List.getElem_mem hlt
      have heq := ih (ms.set i ((ms.getD i ⟨.set, []⟩).grow c)) hwf'
      exact congrArg (fun p => (p.1, c :: p.2)) heq

/-- C9: `layoff_cards` conserves its input deadwood: the `remaining`
and `laid_off` outputs are sublists of the input (hence preserve its
relative order), and together they are a permutation of the input, so
every input card lands in exactly one of the two and nothing else
appears. -/
theorem C9_layoff_cards_conservation (deadwood : List Card) (melds : List Meld) :
    (layoff_cards deadwood melds).1.Sublist deadwood ∧
      (layoff_cards deadwood melds).2.Sublist deadwood ∧
      List.Perm ((layoff_cards deadwood melds).1 ++ (layoff_cards deadwood melds).2)
        deadwood := by
  rw [layoff_cards_eq_rec]
  exact layoffRec_conserves deadwood melds

/-- C6: `layoff_cards` is the single left-to-right first-fit pass the
spec describes — each deadwood card attaches to the first meld (in
meld-list order) accepting it, that meld is grown in place so later
cards can extend it, and non-matching cards go to `remaining`
(`specLayoffPass`); and `can_layoff` accepts exactly the spec's cards
(a Set: equal rank; a Run: same suit and rank one below the current
minimum or one above the current maximum). -/
theorem C6_layoff_first_fit (dw : List Card) (ms : List Meld) (m : Meld) (c : Card)
    (hms : ∀ m' ∈ ms, WfMeld m') (hm : WfMeld m) :
    layoff_cards dw ms = specLayoffPass dw ms ∧
      (m.canLayoff c = true ↔ specCanLayoff m c) := by
  refine ⟨?_, canLayoff_iff_spec m c hm⟩
  rw [layoff_cards_eq_rec]
  exact layoffRec_eq_spec dw ms hms

/-- Witness for C6 at concrete inputs: a run meld 1♣2♣3♣ receiving 4♣
then 5♣ (the second attaches only because the first grew the run), and
a set of fives tested against the fourth five. -/
theorem C6_layoff_first_fit_witness :
    layoff_cards [⟨4, 0⟩, ⟨5, 0⟩] [Meld.new .run [⟨1, 0⟩, ⟨2, 0⟩, ⟨3, 0⟩]] =
        specLayoffPass [⟨4, 0⟩, ⟨5, 0⟩] [Meld.new .run [⟨1, 0⟩, ⟨2, 0⟩, ⟨3, 0⟩]] ∧
      ((Meld.new .set [⟨5, 0⟩, ⟨5, 1⟩, ⟨5, 2⟩]).canLayoff ⟨5, 3⟩ = true ↔
        specCanLayoff (Meld.new .set [⟨5, 0⟩, ⟨5, 1⟩, ⟨5, 2⟩]) ⟨5, 3⟩) :=
  C6_layoff_first_fit _ _ _ _ (by decide) (by decide)

/-! ### Round engine (src/game.rs)

`&mut self` methods returning `Result<T>` are embedded as functions
`Game → Game × Except GameError T`: the returned `Game` is the state
the Rust object holds when the call returns, whether or not it errors.
Error values stand for the distinct `anyhow!` messages of the source.
The i32 arithmetic on points stays far from overflow, so it is embedded
as `Int`. -/

def HAND_SIZE : Nat := 10

def BIG_GIN_BONUS : Int := 31

inductive PlayerId where
  | human
  | bot
deriving DecidableEq, Repr

def PlayerId.other : PlayerId → PlayerId
  | .human => .bot
  | .bot => .human

inductive DrawSource where
  | stock
  | discard
deriving DecidableEq, Repr

inductive TurnPhase where
  | awaitDraw
  | awaitDiscard
  | roundOver
deriving DecidableEq, Repr

structure Scoreboard where
  human : Int
  bot : Int
  rounds_played : Nat
  human_hands_won : Nat
  bot_hands_won : Nat
  draws : Nat
deriving DecidableEq, Repr

inductive RoundEndReason where
  | knock (knocker : PlayerId) (knocker_deadwood : Nat) (opponent_deadwood : Nat)
      (laid_off : List Card) (gin : Bool) (undercut : Bool)
  | bigGin (player : PlayerId) (opponent_deadwood : Nat) (bonus : Int)
  | stockDepleted
deriving DecidableEq, Repr

structure RoundResult where
  winner : Option PlayerId
  points_awarded : Int
  reason : RoundEndReason
  human_hand : List Card
  bot_hand : List Card
deriving DecidableEq, Repr

inductive GameError where
  | notExpectingDraw
  | notThisPlayersTurn
  | notExpectingDiscard
  | invalidCardIndex
  | deadwoodTooHigh
  | stockEmpty
  | discardEmpty
  | roundInProgress
deriving DecidableEq, Repr

inductive ActionOutcome where
  | Continue
  | RoundEnded
deriving DecidableEq, Repr

/-- The `discard` field of the Rust `Game` struct is called
`discardPile` here, because the `discard` method keeps its source
name. -/
structure Game where
  human : List Card
  bot : List Card
  stock : List Card
  discardPile : List Card
  dealer : PlayerId
  currentPlayer : PlayerId
  phase : TurnPhase
  scoreboard : Scoreboard
  pendingRound : Option RoundResult
  lastRoundWinner : Option PlayerId
deriving DecidableEq, Repr

/-- `Vec::pop`: removes and returns the last element. -/
def popVec : List Card → Option (Card × List Card)
  | [] => none
  | [c] => some (c, [])
  | c :: d :: rest =>
    match popVec (d :: rest) with
    | some (t, r) => some (t, c :: r)
    | none => none

def Game.playerHand (g : Game) : PlayerId → List Card
  | .human => g.human
  | .bot => g.bot

def Game.setHand (g : Game) (p : PlayerId) (h : List Card) : Game :=
  match p with
  | .human => { g with human := h }
  | .bot => { g with bot := h }

/-- `build_deck`: suit-major, rank-minor enumeration of all 52 cards. -/
def fullDeck : List Card :=
  (List.range 4).flatMap fun s => (List.range' 1 13).map fun r => ⟨r, s⟩

/-- The ten alternating deals of `start_round` (human first). -/
def dealLoop : Nat → List Card → List Card → List Card →
    Except GameError (List Card × List Card × List Card)
  | 0, hh, bh, stock => .ok (hh, bh, stock)
  | n + 1, hh, bh, stock =>
    match popVec stock with
    | none => .error .stockEmpty
    | some (hc, s1) =>
      match popVec s1 with
      | none => .error .stockEmpty
      | some (bc, s2) => dealLoop n (hh ++ [hc]) (bh ++ [bc]) s2

/-- `start_round`.  The freshly shuffled deck is passed in explicitly
(`build_deck()` + `shuffle` draw from an ambient generator in Rust); a
faithful caller supplies a permutation of `fullDeck`, for which the
error branches are unreachable. -/
def Game.start_round (g : Game) (shuffled : List Card) : Except GameError Game :=
  match dealLoop HAND_SIZE [] [] shuffled with
  | .error e => .error e
  | .ok (hh, bh, st) =>
    match popVec st with
    | none => .error .stockEmpty
    | some (starter, st') =>
      .ok { g with
        human := sortCards hh
        bot := sortCards bh
        stock := st'
        discardPile := [starter]
        currentPlayer := g.dealer.other
        phase := .awaitDraw
        pendingRound := none }

/-- `finish_round`. -/
def Game.finishRound (g : Game) (result : RoundResult) : Game :=
  let g1 :=
    match result.winner with
    | some .human =>
      { g with
        scoreboard := { g.scoreboard with
          human := g.scoreboard.human + result.points_awarded
          human_hands_won := g.scoreboard.human_hands_won + 1 }
        dealer := .bot
        lastRoundWinner := some .human }
    | some .bot =>
      { g with
        scoreboard := { g.scoreboard with
          bot := g.scoreboard.bot + result.points_awarded
          bot_hands_won := g.scoreboard.bot_hands_won + 1 }
        dealer := .human
        lastRoundWinner := some .bot }
    | none =>
      { g with
        scoreboard := { g.scoreboard with draws := g.scoreboard.draws + 1 }
        dealer := g.dealer.other
        lastRoundWinner := none }
  { g1 with
    scoreboard := { g1.scoreboard with rounds_played := g1.scoreboard.rounds_played + 1 }
    phase := .roundOver
    pendingRound := some result }

/-- `Game::draw`. -/
def Game.draw (g : Game) (p : PlayerId) (src : DrawSource) :
    Game × Except GameError ActionOutcome :=
  if g.phase ≠ .awaitDraw then (g, .error .notExpectingDraw)
  else if g.currentPlayer ≠ p then (g, .error .notThisPlayersTurn)
  else if src = .stock ∧ g.stock.length ≤ 2 then
    let result : RoundResult :=
      ⟨none, 0, .stockDepleted, g.human, g.bot⟩
    (g.finishRound result, .ok .RoundEnded)
  else
    let popped : Except GameError (Card × Game) :=
      match src with
      | .stock =>
        match popVec g.stock with
        | none => .error .stockEmpty
        | some (c, s) => .ok (c, { g with stock := s })
      | .discard =>
        match popVec g.discardPile with
        | none => .error .discardEmpty
        | some (c, d) => .ok (c, { g with discardPile := d })
    match popped with
    | .error e => (g, .error e)
    | .ok (card, g1) =>
      let g2 := g1.setHand p (sortCards (g1.playerHand p ++ [card]))
      if (g2.playerHand p).length = HAND_SIZE + 1 then
        let analysis := analyze_hand (g2.playerHand p)
        if analysis.deadwood_value = 0 then
          let opponent := p.other
          let oppAnalysis := analyze_hand (g2.playerHand opponent)
          let oppDw := deadwoodValue oppAnalysis.deadwood
          let result : RoundResult :=
            ⟨some p, (oppDw : Int) + BIG_GIN_BONUS,
              .bigGin p oppDw BIG_GIN_BONUS, g2.human, g2.bot⟩
          (g2.finishRound result, .ok .RoundEnded)
        else ({ g2 with phase := .awaitDiscard }, .ok .Continue)
      else ({ g2 with phase := .awaitDiscard }, .ok .Continue)

/-- `i32::abs`. -/
def i32abs (x : Int) : Int := if x < 0 then -x else x

/-- `resolve_knock` (reads the hands, never writes the game). -/
def Game.resolve_knock (g : Game) (knocker : PlayerId) :
    Except GameError RoundResult :=
  let opponent := knocker.other
  let knockerAnalysis := analyze_hand (g.playerHand knocker)
  if 10 < knockerAnalysis.deadwood_value then .error .deadwoodTooHigh
  else
    let gin := knockerAnalysis.deadwood_value = 0
    let opponentAnalysis := analyze_hand (g.playerHand opponent)
    let pair :=
      if gin then (opponentAnalysis.deadwood, ([] : List Card))
      else layoff_cards opponentAnalysis.deadwood knockerAnalysis.melds
    let opponentDeadwoodValue := deadwoodValue pair.1
    let winner0 := knocker
    let points0 : Int := (opponentDeadwoodValue : Int) - (knockerAnalysis.deadwood_value : Int)
    let step :=
      if opponentDeadwoodValue ≤ knockerAnalysis.deadwood_value ∧ ¬gin then
        (opponent,
          ((knockerAnalysis.deadwood_value : Int) - (opponentDeadwoodValue : Int)) + 25,
          true)
      else (winner0, if gin then points0 + 25 else points0, false)
    let winner := step.1
    let points := if winner = .bot ∧ step.2.1 < 0 then 0 else step.2.1
    .ok
      { winner := some winner
        points_awarded := i32abs points
        reason := .knock knocker knockerAnalysis.deadwood_value opponentDeadwoodValue
          pair.2 (decide gin) step.2.2
        human_hand := g.human
        bot_hand := g.bot }

/-- `advance_turn`. -/
def Game.advanceTurn (g : Game) : Game :=
  { g with currentPlayer := g.currentPlayer.other, phase := .awaitDraw }

/-- `Game::discard` (the method; the pile is the `discardPile` field).
When `resolve_knock` fails, the Rust `?` operator surfaces the error
*after* the card has already been moved from the hand to the pile, so
the errored state is the mutated `g2`. -/
def Game.discard (g : Game) (p : PlayerId) (cardIndex : Nat) (declareKnock : Bool) :
    Game × Except GameError ActionOutcome :=
  if g.phase ≠ .awaitDiscard then (g, .error .notExpectingDiscard)
  else if g.currentPlayer ≠ p then (g, .error .notThisPlayersTurn)
  else if (g.playerHand p).length ≤ cardIndex then (g, .error .invalidCardIndex)
  else
    let hand := g.playerHand p
    let card := hand.getD cardIndex ⟨0, 0⟩
    let g1 := g.setHand p (sortCards (hand.eraseIdx cardIndex))
    let g2 := { g1 with discardPile := g1.discardPile ++ [card] }
    if declareKnock then
      match g2.resolve_knock p with
      | .error e => (g2, .error e)
      | .ok result => (g2.finishRound result, .ok .RoundEnded)
    else (g2.advanceTurn, .ok .Continue)

/-- `start_next_round`.  As in `start_round`, the fresh shuffled deck is
an explicit argument; with a full 52-card deck `start_round` cannot
fail. -/
def Game.start_next_round (g : Game) (shuffled : List Card) :
    Game × Except GameError Unit :=
  if g.phase ≠ .roundOver then (g, .error .roundInProgress)
  else
    match g.start_round shuffled with
    | .ok g' => (g', .ok ())
    | .error e => (g, .error e)

/-- The `Game` value built by `Game::new` before it deals the first
round. -/
def Game.initial : Game :=
  { human := []
    bot := []
    stock := []
    discardPile := []
    dealer := .bot
    currentPlayer := .human
    phase := .awaitDraw
    scoreboard := ⟨0, 0, 0, 0, 0, 0⟩
    pendingRound := none
    lastRoundWinner := none }

/-! ### Claim C7: stock depletion -/

/-- C7: drawing from the stock in phase `AwaitDraw` as the current
player when the stock holds at most 2 cards ends the round immediately
as `StockDepleted` with no winner and 0 points, increments the draws
counter by exactly 1, and removes no card from the stock. -/
theorem C7_stock_depleted (g : Game) (p : PlayerId)
    (hphase : g.phase = .awaitDraw) (hcur : g.currentPlayer = p)
    (hstock : g.stock.length ≤ 2) :
    (g.draw p .stock).2 = .ok .RoundEnded ∧
      (g.draw p .stock).1.phase = .roundOver ∧
      (g.draw p .stock).1.pendingRound =
        some ⟨none, 0, .stockDepleted, g.human, g.bot⟩ ∧
      (g.draw p .stock).1.scoreboard.draws = g.scoreboard.draws + 1 ∧
      (g.draw p .stock).1.stock = g.stock := by
  have hdraw : g.draw p .stock =
      (g.finishRound ⟨none, 0, .stockDepleted, g.human, g.bot⟩, .ok .RoundEnded) := by
    simp [Game.draw, hphase, hcur, hstock]
  rw [hdraw]
  simp [Game.finishRound]

/-- Witness game for C7: two cards left in the stock. -/
def gC7 : Game :=
  { human := [⟨1, 0⟩, ⟨3, 1⟩, ⟨5, 2⟩, ⟨7, 3⟩, ⟨9, 0⟩, ⟨11, 1⟩, ⟨13, 2⟩, ⟨2, 3⟩, ⟨6, 0⟩, ⟨10, 1⟩]
    bot := [⟨1, 1⟩, ⟨3, 2⟩, ⟨5, 3⟩, ⟨7, 0⟩, ⟨9, 1⟩, ⟨11, 2⟩, ⟨13, 3⟩, ⟨2, 0⟩, ⟨6, 1⟩, ⟨10, 2⟩]
    stock := [⟨4, 0⟩, ⟨4, 1⟩]
    discardPile := [⟨8, 0⟩]
    dealer := .bot
    currentPlayer := .human
    phase := .awaitDraw
    scoreboard := ⟨0, 0, 0, 0, 0, 0⟩
    pendingRound := none
    lastRoundWinner := none }

/-- Witness for C7 at the concrete game `gC7`. -/
theorem C7_stock_depleted_witness :
    (gC7.draw .human .stock).2 = .ok .RoundEnded ∧
      (gC7.draw .human .stock).1.phase = .roundOver ∧
      (gC7.draw .human .stock).1.pendingRound =
        some ⟨none, 0, .stockDepleted, gC7.human, gC7.bot⟩ ∧
      (gC7.draw .human .stock).1.scoreboard.draws = gC7.scoreboard.draws + 1 ∧
      (gC7.draw .human .stock).1.stock = gC7.stock :=
  C7_stock_depleted gC7 .human rfl rfl (by decide)

/-! ### Claim C3: knock scoring -/

/-- C3: with knocker deadwood `d ≤ 10`, `resolve_knock` scores the
round as the spec says: gin (`d = 0`) applies no layoff, counts the
opponent's full deadwood `r` and awards the knocker `r + 25`; otherwise
the opponent lays off and, with remaining value `r`, `r ≤ d` is an
undercut awarding the opponent `(d − r) + 25`, else the knocker scores
`r − d`. -/
theorem C3_resolve_knock_cases (g : Game) (knocker : PlayerId)
    (hd : (analyze_hand (g.playerHand knocker)).deadwood_value ≤ 10) :
    ((analyze_hand (g.playerHand knocker)).deadwood_value = 0 →
      g.resolve_knock knocker = .ok
        ⟨some knocker,
          (deadwoodValue (analyze_hand (g.playerHand knocker.other)).deadwood : Int) + 25,
          .knock knocker 0
            (deadwoodValue (analyze_hand (g.playerHand knocker.other)).deadwood)
            [] true false,
          g.human, g.bot⟩) ∧
    ((analyze_hand (g.playerHand knocker)).deadwood_value ≠ 0 →
      deadwoodValue (layoff_cards (analyze_hand (g.playerHand knocker.other)).deadwood
          (analyze_hand (g.playerHand knocker)).melds).1 ≤
        (analyze_hand (g.playerHand knocker)).deadwood_value →
      g.resolve_knock knocker = .ok
        ⟨some knocker.other,
          (((analyze_hand (g.playerHand knocker)).deadwood_value : Int) -
            (deadwoodValue (layoff_cards (analyze_hand (g.playerHand knocker.other)).deadwood
              (analyze_hand (g.playerHand knocker)).melds).1 : Int)) + 25,
          .knock knocker (analyze_hand (g.playerHand knocker)).deadwood_value
            (deadwoodValue (layoff_cards (analyze_hand (g.playerHand knocker.other)).deadwood
              (analyze_hand (g.playerHand knocker)).melds).1)
            (layoff_cards (analyze_hand (g.playerHand knocker.other)).deadwood
              (analyze_hand (g.playerHand knocker)).melds).2 false true,
          g.human, g.bot⟩) ∧
    ((analyze_hand (g.playerHand knocker)).deadwood_value ≠ 0 →
      (analyze_hand (g.playerHand knocker)).deadwood_value <
        deadwoodValue (layoff_cards (analyze_hand (g.playerHand knocker.other)).deadwood
          (analyze_hand (g.playerHand knocker)).melds).1 →
      g.resolve_knock knocker = .ok
        ⟨some knocker,
          (deadwoodValue (layoff_cards (analyze_hand (g.playerHand knocker.other)).deadwood
            (analyze_hand (g.playerHand knocker)).melds).1 : Int) -
            ((analyze_hand (g.playerHand knocker)).deadwood_value : Int),
          .knock knocker (analyze_hand (g.playerHand knocker)).deadwood_value
            (deadwoodValue (layoff_cards (analyze_hand (g.playerHand knocker.other)).deadwood
              (analyze_hand (g.playerHand knocker)).melds).1)
            (layoff_cards (analyze_hand (g.playerHand knocker.other)).deadwood
              (analyze_hand (g.playerHand knocker)).melds).2 false false,
          g.human, g.bot⟩) := by
  refine ⟨?_, ?_, ?_⟩
  · intro h0
    simp only [Game.resolve_knock]
    rw [if_neg (by omega)]
    simp only [h0]
    norm_num
    rw [if_neg (by rintro ⟨-, hneg⟩; omega)]
    unfold i32abs
    rw [if_neg (by omega)]
  · intro h0 hle
    simp only [Game.resolve_knock]
    rw [if_neg (by omega)]
    simp only [if_neg h0]
    rw [if_pos ⟨hle, h0⟩]
    dsimp only
    rw [if_neg (by rintro ⟨-, hneg⟩; omega)]
    unfold i32abs
    rw [if_neg (by omega)]
    simp [h0]
  · intro h0 hlt
    simp only [Game.resolve_knock]
    rw [if_neg (by omega)]
    simp only [if_neg h0]
    rw [if_neg (by rintro ⟨hle, -⟩; omega)]
    dsimp only
    rw [if_neg (by rintro ⟨-, hneg⟩; omega)]
    unfold i32abs
    rw [if_neg (by omega)]
    simp [h0]

/-- Witness game for C3: the human knocker holds runs 1-2-3♣, 5-6-7♣,
1-2-3♦ plus the 5♠ (deadwood 5); the bot opponent holds meldless
hearts and spades that cannot lay off. -/
def gC3 : Game :=
  { human := [⟨1, 0⟩, ⟨2, 0⟩, ⟨3, 0⟩, ⟨5, 0⟩, ⟨6, 0⟩, ⟨7, 0⟩, ⟨1, 1⟩, ⟨2, 1⟩, ⟨3, 1⟩, ⟨5, 3⟩]
    bot := [⟨5, 2⟩, ⟨7, 2⟩, ⟨9, 2⟩, ⟨11, 2⟩, ⟨13, 2⟩, ⟨2, 3⟩, ⟨4, 3⟩, ⟨8, 3⟩, ⟨10, 3⟩, ⟨12, 3⟩]
    stock := [⟨4, 0⟩, ⟨4, 1⟩, ⟨4, 2⟩]
    discardPile := [⟨8, 0⟩]
    dealer := .bot
    currentPlayer := .human
    phase := .awaitDiscard
    scoreboard := ⟨0, 0, 0, 0, 0, 0⟩
    pendingRound := none
    lastRoundWinner := none }

/-- Witness for C3 at the concrete game `gC3` (knocker deadwood 5,
opponent remainder 75: the knocker wins 70). -/
theorem C3_resolve_knock_cases_witness :
    gC3.resolve_knock .human = .ok
      ⟨some PlayerId.human,
        (deadwoodValue (layoff_cards (analyze_hand (gC3.playerHand PlayerId.human.other)).deadwood
          (analyze_hand (gC3.playerHand PlayerId.human)).melds).1 : Int) -
          ((analyze_hand (gC3.playerHand PlayerId.human)).deadwood_value : Int),
        .knock PlayerId.human (analyze_hand (gC3.playerHand PlayerId.human)).deadwood_value
          (deadwoodValue (layoff_cards (analyze_hand (gC3.playerHand PlayerId.human.other)).deadwood
            (analyze_hand (gC3.playerHand PlayerId.human)).melds).1)
          (layoff_cards (analyze_hand (gC3.playerHand PlayerId.human.other)).deadwood
            (analyze_hand (gC3.playerHand PlayerId.human)).melds).2 false false,
        gC3.human, gC3.bot⟩ :=
  (C3_resolve_knock_cases gC3 .human (by decide)).2.2 (by decide) (by decide)

/-! ### Claim C4: draw transition and Big Gin -/

theorem playerHand_set_stock (g : Game) (s : List Card) (p : PlayerId) :
    ({ g with stock := s } : Game).playerHand p = g.playerHand p := by
  cases p <;> rfl

theorem playerHand_set_discard (g : Game) (d : List Card) (p : PlayerId) :
    ({ g with discardPile := d } : Game).playerHand p = g.playerHand p := by
  cases p <;> rfl

theorem playerHand_setHand_same (g : Game) (p : PlayerId) (h : List Card) :
    (g.setHand p h).playerHand p = h := by
  cases p <;> rfl

theorem playerHand_setHand_other (g : Game) (p : PlayerId) (h : List Card) :
    (g.setHand p h).playerHand p.other = g.playerHand p.other := by
  cases p <;> rfl

/-- C4: a valid draw (right phase and player, a card available from the
chosen source) that completes an 11-card hand of deadwood value 0 ends
the round at once as Big Gin — winner is the drawer, points are the
opponent's full deadwood plus 31, with no discard step; any other valid
draw moves the game to `AwaitDiscard`. -/
theorem C4_draw_big_gin (g : Game) (p : PlayerId) (src : DrawSource)
    (c : Card) (restPile : List Card)
    (hphase : g.phase = .awaitDraw) (hcur : g.currentPlayer = p)
    (hhand : (g.playerHand p).length = 10)
    (hpop : (match src with
             | .stock => popVec g.stock
             | .discard => popVec g.discardPile) = some (c, restPile))
    (hstock : src = .stock → 2 < g.stock.length) :
    ((analyze_hand (sortCards (g.playerHand p ++ [c]))).deadwood_value = 0 →
      (g.draw p src).2 = .ok .RoundEnded ∧
        (g.draw p src).1.phase = .roundOver ∧
        ∃ rr, (g.draw p src).1.pendingRound = some rr ∧
          rr.winner = some p ∧
          rr.points_awarded =
            (deadwoodValue (analyze_hand (g.playerHand p.other)).deadwood : Int) + 31 ∧
          rr.reason = .bigGin p
            (deadwoodValue (analyze_hand (g.playerHand p.other)).deadwood) 31) ∧
    ((analyze_hand (sortCards (g.playerHand p ++ [c]))).deadwood_value ≠ 0 →
      (g.draw p src).2 = .ok .Continue ∧
        (g.draw p src).1.phase = .awaitDiscard) := by
  have hg1 : ∃ g1 : Game, (g.draw p src) =
      (let g2 := g1.setHand p (sortCards (g1.playerHand p ++ [c]))
       if (g2.playerHand p).length = HAND_SIZE + 1 then
         let analysis := analyze_hand (g2.playerHand p)
         if analysis.deadwood_value = 0 then
           let opponent := p.other
           let oppAnalysis := analyze_hand (g2.playerHand opponent)
           let oppDw := deadwoodValue oppAnalysis.deadwood
           let result : RoundResult :=
             ⟨some p, (oppDw : Int) + BIG_GIN_BONUS,
               .bigGin p oppDw BIG_GIN_BONUS, g2.human, g2.bot⟩
           (g2.finishRound result, .ok .RoundEnded)
         else ({ g2 with phase := .awaitDiscard }, .ok .Continue)
       else ({ g2 with phase := .awaitDiscard }, .ok .Continue)) ∧
      g1.playerHand p = g.playerHand p ∧ g1.playerHand p.other = g.playerHand p.other := by
    cases src with
    | stock =>
      refine ⟨{ g with stock := restPile }, ?_, ?_, ?_⟩
      · simp only [Game.draw, hphase, hcur]
        rw [if_neg (by simp), if_neg (by simp [hcur]),
          if_neg (by rintro ⟨-, hle⟩; have := hstock rfl; omega)]
        dsimp only at hpop ⊢
        rw [hpop]
      · exact playerHand_set_stock g restPile p
      · exact playerHand_set_stock g restPile p.other
    | discard =>
      refine ⟨{ g with discardPile := restPile }, ?_, ?_, ?_⟩
      · simp only [Game.draw, hphase, hcur]
        rw [if_neg (by simp), if_neg (by simp [hcur]),
          if_neg (by rintro ⟨hs, -⟩; cases hs)]
        dsimp only at hpop ⊢
        rw [hpop]
      · exact playerHand_set_discard g restPile p
      · exact playerHand_set_discard g restPile p.other
  obtain ⟨g1, hdraw, hsame, hother⟩ := hg1
  rw [hdraw]
  dsimp only
  rw [hsame, playerHand_setHand_same, playerHand_setHand_other, hother]
  rw [if_pos (by rw [sortCards_length, List.length_append, hhand]; rfl)]
  constructor
  · intro h0
    rw [if_pos h0]
    refine ⟨rfl, ?_, ?_⟩
    · simp [Game.finishRound]
    · refine ⟨⟨some p,
          (deadwoodValue (analyze_hand (g.playerHand p.other)).deadwood : Int) + BIG_GIN_BONUS,
          .bigGin p (deadwoodValue (analyze_hand (g.playerHand p.other)).deadwood) BIG_GIN_BONUS,
          (g1.setHand p (sortCards (g.playerHand p ++ [c]))).human,
          (g1.setHand p (sortCards (g.playerHand p ++ [c]))).bot⟩, ?_, rfl, rfl, rfl⟩
      simp [Game.finishRound]
  · intro h0
    rw [if_neg h0]
    exact ⟨rfl, rfl⟩

/-- Witness game for C4: drawing the 5♣ from the stock completes the
human's 11 cards into runs 1-5♣, 7-9♦, J-K♥ (Big Gin); the bot's
meldless hand is worth 54, so 85 points are awarded. -/
def gC4 : Game :=
  { human := [⟨1, 0⟩, ⟨2, 0⟩, ⟨3, 0⟩, ⟨4, 0⟩, ⟨7, 1⟩, ⟨8, 1⟩, ⟨9, 1⟩, ⟨11, 2⟩, ⟨12, 2⟩, ⟨13, 2⟩]
    bot := [⟨1, 3⟩, ⟨3, 3⟩, ⟨5, 3⟩, ⟨7, 3⟩, ⟨9, 3⟩, ⟨11, 1⟩, ⟨13, 1⟩, ⟨1, 2⟩, ⟨3, 2⟩, ⟨5, 2⟩]
    stock := [⟨4, 3⟩, ⟨6, 3⟩, ⟨5, 0⟩]
    discardPile := [⟨10, 1⟩]
    dealer := .bot
    currentPlayer := .human
    phase := .awaitDraw
    scoreboard := ⟨0, 0, 0, 0, 0, 0⟩
    pendingRound := none
    lastRoundWinner := none }

/-- Witness for C4 at the concrete game `gC4`. -/
theorem C4_draw_big_gin_witness :
    (gC4.draw .human .stock).2 = .ok .RoundEnded ∧
      (gC4.draw .human .stock).1.phase = .roundOver ∧
      ∃ rr, (gC4.draw .human .stock).1.pendingRound = some rr ∧
        rr.winner = some PlayerId.human ∧
        rr.points_awarded =
          (deadwoodValue (analyze_hand (gC4.playerHand PlayerId.human.other)).deadwood : Int) + 31 ∧
        rr.reason = .bigGin PlayerId.human
          (deadwoodValue (analyze_hand (gC4.playerHand PlayerId.human.other)).deadwood) 31 :=
  (C4_draw_big_gin gC4 .human .stock ⟨5, 0⟩ [⟨4, 3⟩, ⟨6, 3⟩] rfl rfl (by decide) rfl
    (fun _ => by decide)).1 (by decide)

/-! ### Claim C1: error atomicity

`Game::discard` moves the card from the hand to the pile *before*
`resolve_knock` validates the knock, so a `DeadwoodTooHigh` error
escapes through `?` with the mutation already applied.  `gC1` exhibits
this: the human attempts to knock while holding only junk. -/

/-- Witness game for C1: an 11-card meldless human hand (deadwood far
above 10) about to discard-and-knock. -/
def gC1 : Game :=
  { human := [⟨1, 0⟩, ⟨3, 1⟩, ⟨5, 2⟩, ⟨7, 3⟩, ⟨9, 0⟩, ⟨11, 1⟩, ⟨13, 2⟩, ⟨2, 3⟩, ⟨6, 0⟩,
      ⟨10, 1⟩, ⟨12, 3⟩]
    bot := [⟨1, 1⟩, ⟨3, 2⟩, ⟨5, 3⟩, ⟨7, 0⟩, ⟨9, 1⟩, ⟨11, 2⟩, ⟨13, 3⟩, ⟨2, 0⟩, ⟨6, 1⟩, ⟨10, 2⟩]
    stock := [⟨4, 0⟩, ⟨4, 1⟩, ⟨4, 2⟩, ⟨4, 3⟩]
    discardPile := [⟨8, 0⟩]
    dealer := .bot
    currentPlayer := .human
    phase := .awaitDiscard
    scoreboard := ⟨0, 0, 0, 0, 0, 0⟩
    pendingRound := none
    lastRoundWinner := none }

/-- C1 fails on the code: `discard(human, 0, declare_knock = true)` on
`gC1` returns the `DeadwoodTooHigh` error, yet the state is *not* the
pre-call state — the discarded card has already moved from the hand to
the discard pile (hand shrunk to 10 cards, pile grew), while the phase
still says `AwaitDiscard`.  This contradicts the spec's no-partial-
mutation guarantee, which the rest of the engine and the app's
re-prompt error handling rely on. -/
theorem C1_discard_knock_error_mutates :
    (gC1.discard .human 0 true).2 = .error .deadwoodTooHigh ∧
      (gC1.discard .human 0 true).1 ≠ gC1 ∧
      (gC1.discard .human 0 true).1.discardPile = gC1.discardPile ++ [⟨1, 0⟩] ∧
      (gC1.discard .human 0 true).1.human.length = 10 ∧
      (gC1.discard .human 0 true).1.phase = .awaitDiscard := by
  refine ⟨rfl, ?_, rfl, rfl, rfl⟩
  decide

/-! ### Claim C10: the discard pile is never empty at `AwaitDraw` -/

theorem phase_setHand (g : Game) (p : PlayerId) (h : List Card) :
    (g.setHand p h).phase = g.phase := by
  cases p <;> rfl

theorem start_round_ok_shape (g : Game) (deck : List Card) (g' : Game)
    (h : g.start_round deck = .ok g') :
    g'.discardPile ≠ [] ∧ g'.phase = .awaitDraw := by
  unfold Game.start_round at h
  cases hd : dealLoop HAND_SIZE [] [] deck with
  | error e => rw [hd] at h; cases h
  | ok t =>
    obtain ⟨hh, bh, st⟩ := t
    rw [hd] at h
    dsimp only at h
    cases hp : popVec st with
    | none => rw [hp] at h; cases h
    | some pr =>
      obtain ⟨starter, st'⟩ := pr
      rw [hp] at h
      dsimp only at h
      cases h
      exact ⟨by simp, rfl⟩

/-- Any state returned by `draw` is the input state or has left
`AwaitDraw`. -/
theorem draw_fst_cases (g : Game) (p : PlayerId) (src : DrawSource) :
    (g.draw p src).1 = g ∨ (g.draw p src).1.phase ≠ .awaitDraw := by
  simp only [Game.draw]
  split_ifs with h1 h2 h3
  · left; rfl
  · left; rfl
  · right; simp [Game.finishRound]
  · cases src with
    | stock =>
      cases hp : popVec g.stock with
      | none => left; rfl
      | some pr =>
        obtain ⟨c, s⟩ := pr
        dsimp only
        split_ifs with h4 h5
        · right; simp [Game.finishRound]
        · right; simp
        · right; simp
    | discard =>
      cases hp : popVec g.discardPile with
      | none => left; rfl
      | some pr =>
        obtain ⟨c, s⟩ := pr
        dsimp only
        split_ifs with h4 h5
        · right; simp [Game.finishRound]
        · right; simp
        · right; simp

/-- Any state returned by `discard` is the input state, has left
`AwaitDraw`, or is at `AwaitDraw` with a non-empty pile. -/
theorem discard_fst_cases (g : Game) (p : PlayerId) (i : Nat) (k : Bool) :
    (g.discard p i k).1 = g ∨ (g.discard p i k).1.phase ≠ .awaitDraw ∨
      ((g.discard p i k).1.phase = .awaitDraw ∧ (g.discard p i k).1.discardPile ≠ []) := by
  simp only [Game.discard]
  split_ifs with h1 h2 h3 h4
  · left; rfl
  · left; rfl
  · left; rfl
  · have hph : g.phase = .awaitDiscard := not_not.mp h1
    cases hr : ({ g.setHand p (sortCards ((g.playerHand p).eraseIdx i)) with
        discardPile := (g.setHand p (sortCards ((g.playerHand p).eraseIdx i))).discardPile ++
          [(g.playerHand p).getD i ⟨0, 0⟩] } : Game).resolve_knock p with
    | error e =>
      right; left
      rw [phase_setHand, hph]
      intro hc
      cases hc
    | ok result =>
      right; left
      simp [Game.finishRound]
  · right; right
    constructor
    · rfl
    · simp [Game.advanceTurn]

/-- `start_next_round` either keeps the state or hands over a freshly
started round. -/
theorem start_next_fst_cases (g : Game) (deck : List Card) :
    (g.start_next_round deck).1 = g ∨
      ∃ g', g.start_round deck = .ok g' ∧ (g.start_next_round deck).1 = g' := by
  simp only [Game.start_next_round]
  split_ifs with h1
  · left; rfl
  · cases hs : g.start_round deck with
    | ok g' => right; exact ⟨g', rfl, rfl⟩
    | error e => left; rfl

/-- The game states reachable from a freshly started round through the
public operations, including calls that return errors (the state an
errored call leaves behind is the `.1` component). -/
inductive Reachable : Game → Prop
  | start (g g' : Game) (deck : List Card) : List.Perm deck fullDeck →
      g.start_round deck = .ok g' → Reachable g'
  | draw (g : Game) (p : PlayerId) (src : DrawSource) :
      Reachable g → Reachable (g.draw p src).1
  | disc (g : Game) (p : PlayerId) (i : Nat) (k : Bool) :
      Reachable g → Reachable (g.discard p i k).1
  | next (g : Game) (deck : List Card) : Reachable g → List.Perm deck fullDeck →
      Reachable (g.start_next_round deck).1

theorem reachable_discard_nonempty {g : Game} (h : Reachable g) :
    g.phase = .awaitDraw → g.discardPile ≠ [] := by
  induction h with
  | start g0 g' deck hperm hok =>
    exact fun _ => (start_round_ok_shape g0 deck g' hok).1
  | draw g0 p src hr ih =>
    rcases draw_fst_cases g0 p src with he | hp
    · rw [he]; exact ih
    · exact fun hph => absurd hph hp
  | disc g0 p i k hr ih =>
    rcases discard_fst_cases g0 p i k with he | hp | ⟨-, hne⟩
    · rw [he]; exact ih
    · exact fun hph => absurd hph hp
    · exact fun _ => hne
  | next g0 deck hr hperm ih =>
    rcases start_next_fst_cases g0 deck with he | ⟨g', hok, he⟩
    · rw [he]; exact ih
    · rw [he]; exact fun _ => (start_round_ok_shape g0 deck g' hok).1

theorem popVec_of_ne_nil {l : List Card} (h : l ≠ []) :
    ∃ c r, popVec l = some (c, r) := by
  induction l with
  | nil => exact absurd rfl h
  | cons a t ih =>
    cases t with
    | nil => exact ⟨a, [], rfl⟩
    | cons b t' =>
      obtain ⟨c, r, hr⟩ := ih (by simp)
      refine ⟨c, a :: r, ?_⟩
      simp only [popVec, hr]

/-- C10: in every state reachable from a freshly started round through
the public operations, the discard pile is non-empty whenever the phase
is `AwaitDraw`; consequently `draw(p, Discard)` can never return the
empty-discard-pile error. -/
theorem C10_awaitDraw_discard_nonempty (g : Game) (h : Reachable g) :
    (g.phase = .awaitDraw → g.discardPile ≠ []) ∧
      ∀ p, (g.draw p .discard).2 ≠ .error .discardEmpty := by
  refine ⟨reachable_discard_nonempty h, ?_⟩
  intro p
  simp only [Game.draw]
  by_cases h1 : g.phase ≠ .awaitDraw
  · rw [if_pos h1]
    simp
  · rw [if_neg h1]
    by_cases h2 : g.currentPlayer ≠ p
    · rw [if_pos h2]
      simp
    · rw [if_neg h2]
      rw [if_neg (by rintro ⟨hcon, -⟩; cases hcon)]
      obtain ⟨c, r, hp⟩ := popVec_of_ne_nil (reachable_discard_nonempty h (not_not.mp h1))
      rw [hp]
      dsimp only
      split_ifs with h4 h5 <;> simp

/-- The state of the round dealt by `Game::new` from an unshuffled
deck. -/
def gStart : Game :=
  match Game.initial.start_round fullDeck with
  | .ok g => g
  | .error _ => Game.initial

/-- Witness for C10 at the concrete reachable state `gStart`. -/
theorem C10_awaitDraw_discard_nonempty_witness :
    gStart.discardPile ≠ [] ∧ (gStart.draw .human .discard).2 ≠ .error .discardEmpty := by
  have hreach : Reachable gStart :=
    Reachable.start Game.initial gStart fullDeck (List.Perm.refl _) (by rfl)
  exact ⟨(C10_awaitDraw_discard_nonempty gStart hreach).1 (by rfl),
    (C10_awaitDraw_discard_nonempty gStart hreach).2 .human⟩

end Deadwood
